import Mathlib

/-!
Verification of the sudoku solving engine (`sudokunista/sudokugame.py`).

The board state is embedded as a structure with the 81-cell board list, the
three families of nine candidate sets (rows, cols, boxes) and the difficulty
log.  Python's small-integer sets iterate in ascending order, so candidate
sets are modelled as strictly sorted lists; `set.remove` becomes `List.erase`
and `set.add` becomes ordered insertion.  Fallible operations (Python
`assert`) return `Except String`.  The recursive solvers take explicit fuel
(recursion depth is bounded by the number of open squares, so fuel 82 is
always enough); running out of fuel is an error, never a result, hence any
`.ok` outcome is fuel-independent.
-/

/-- Game state: 81-cell board, candidate sets for rows/cols/boxes, log. -/
structure Sudoku where
  board : List Nat
  rows : List (List Nat)
  cols : List (List Nat)
  boxes : List (List Nat)
  log : String
deriving DecidableEq

set_option maxRecDepth 40000

/-- Row index of a square: `sq // 9`. -/
def rowOf (sq : Nat) : Nat := sq / 9

/-- Column index of a square: `sq % 9`. -/
def colOf (sq : Nat) : Nat := sq % 9

/-- Box index of a square: `3 * (r // 3) + c // 3`. -/
def boxOf (sq : Nat) : Nat := 3 * (sq / 9 / 3) + sq % 9 / 3

/-- The `rcb` lookup of the source, as a function of the square index. -/
def rcb (sq : Nat) : Nat × Nat × Nat := (rowOf sq, colOf sq, boxOf sq)

/-- `get_sqs_in_row`: squares of a row, ascending. -/
def get_sqs_in_row (r : Nat) : List Nat := (List.range 9).map (fun i => 9 * r + i)

/-- `get_sqs_in_col`: squares of a column, ascending. -/
def get_sqs_in_col (c : Nat) : List Nat := (List.range 9).map (fun i => c + 9 * i)

/-- `get_sqs_in_box`: squares of a box, ascending (the source builds
`box_sq_map` by scanning squares in ascending order). -/
def get_sqs_in_box (b : Nat) : List Nat :=
  (List.range 81).filter (fun sq => boxOf sq == b)

/-- The full candidate set `{1..9}` (`initset` in the constructor). -/
def initset : List Nat := [1, 2, 3, 4, 5, 6, 7, 8, 9]

/-- A freshly constructed game: empty board, all candidate sets full. -/
def Sudoku.new : Sudoku :=
  { board := List.replicate 81 0
    rows := List.replicate 9 initset
    cols := List.replicate 9 initset
    boxes := List.replicate 9 initset
    log := "" }

/-- Ordered insertion into a sorted list (models `set.add` of an absent
element, which keeps ascending iteration order). -/
def setInsert (v : Nat) : List Nat → List Nat
  | [] => [v]
  | x :: xs => if v < x then v :: x :: xs else x :: setInsert v xs

/-- `unfill`: remove a value from a square, restoring it to the three
candidate sets.  The source asserts the value is absent from all three sets
(`InvariantViolation` otherwise) and is a no-op on an empty square. -/
def Sudoku.unfill (s : Sudoku) (sq : Nat) : Except String Sudoku :=
  if sq < 81 then
    let v := s.board.getD sq 0
    if v = 0 then .ok s
    else
      let r := rowOf sq
      let c := colOf sq
      let b := boxOf sq
      if v ∈ s.rows.getD r [] ∨ v ∈ s.cols.getD c [] ∨ v ∈ s.boxes.getD b [] then
        .error ("InvariantViolation")
      else
        .ok { s with
          board := s.board.set sq 0
          rows := s.rows.set r (setInsert v (s.rows.getD r []))
          cols := s.cols.set c (setInsert v (s.cols.getD c []))
          boxes := s.boxes.set b (setInsert v (s.boxes.getD b [])) }
  else .error ("IllegalAssignment")

/-- `fill`: fill a square with a value (unfilling first if occupied, pure
unfill if the value is 0).  Fails with `IllegalAssignment` unless the value
is in all three candidate sets; on success returns the updated state and the
squares of every row/col/box whose candidate set became empty. -/
def Sudoku.fill (s : Sudoku) (sq value : Nat) : Except String (Sudoku × List Nat) :=
  if sq < 81 ∧ value < 10 then
    match (if s.board.getD sq 0 ≠ 0 then s.unfill sq else .ok s) with
    | .error e => .error e
    | .ok s1 =>
      if value = 0 then .ok (s1, [])
      else
        let r := rowOf sq
        let c := colOf sq
        let b := boxOf sq
        if value ∈ s1.rows.getD r [] ∧ value ∈ s1.cols.getD c [] ∧
            value ∈ s1.boxes.getD b [] then
          let rows1 := (s1.rows.getD r []).erase value
          let cols1 := (s1.cols.getD c []).erase value
          let boxes1 := (s1.boxes.getD b []).erase value
          let s2 : Sudoku := { s1 with
            board := s1.board.set sq value
            rows := s1.rows.set r rows1
            cols := s1.cols.set c cols1
            boxes := s1.boxes.set b boxes1 }
          let completed :=
            (if rows1 = [] then get_sqs_in_row r else []) ++
            (if cols1 = [] then get_sqs_in_col c else []) ++
            (if boxes1 = [] then get_sqs_in_box b else [])
          .ok (s2, completed)
        else .error ("IllegalAssignment")
  else .error ("IllegalAssignment")

/-- `get_sq_options`: candidate values of a square (empty if occupied):
`rows[r] & cols[c] & boxes[b]`, in ascending iteration order. -/
def Sudoku.get_sq_options (s : Sudoku) (sq : Nat) : List Nat :=
  if s.board.getD sq 0 ≠ 0 then []
  else
    ((s.rows.getD (rowOf sq) []).filter
      (fun v => v ∈ s.cols.getD (colOf sq) [])).filter
      (fun v => v ∈ s.boxes.getD (boxOf sq) [])

/-- `get_opens`: indices of open squares, ascending. -/
def Sudoku.get_opens (s : Sudoku) : List Nat :=
  (List.range 81).filter (fun i => s.board.getD i 0 == 0)

/-- Stable insertion for sorting (square, DoF) pairs by degree of freedom:
the new element goes before the first strictly "later" element, which is
exactly the behaviour of Python's stable `list.sort`. -/
def insertByKey (rev : Bool) (y : Nat × Nat) : List (Nat × Nat) → List (Nat × Nat)
  | [] => [y]
  | x :: xs =>
    if (if rev then x.2 < y.2 else y.2 < x.2) then y :: x :: xs
    else x :: insertByKey rev y xs

/-- `get_opens_by_dof`: open squares sorted by ascending (or, with `rev`,
descending) number of options, ties kept in ascending square order. -/
def Sudoku.get_opens_by_dof (s : Sudoku) (rev : Bool) : List Nat :=
  ((s.get_opens.map (fun i => (i, (s.get_sq_options i).length))).foldl
    (fun acc y => insertByKey rev y acc) []).map (fun p => p.1)

/-- One step of the value loop in `solve`: try one candidate value, recursing
via `recur`; short-circuits once a solution or an error has been produced. -/
def solveStep (recur : Sudoku → Except String (Bool × Sudoku)) (sq : Nat)
    (acc : Except String (Bool × Sudoku)) (v : Nat) :
    Except String (Bool × Sudoku) :=
  match acc with
  | .error e => .error e
  | .ok (true, s) => .ok (true, s)
  | .ok (false, s) =>
    match s.fill sq v with
    | .error e => .error e
    | .ok (s1, _) =>
      match recur s1 with
      | .error e => .error e
      | .ok (true, s2) => .ok (true, s2)
      | .ok (false, s2) =>
        match s2.unfill sq with
        | .error e => .error e
        | .ok s3 => .ok (false, s3)

/-- `solve`: brute-force backtracking solver.  Picks the open square with the
fewest options and tries each of its candidate values in turn (the source's
`for sq in opens` loop always returns within its first iteration). -/
def solve : Nat → Sudoku → Except String (Bool × Sudoku)
  | 0, _ => .error ("OutOfFuel")
  | fuel + 1, s =>
    match s.get_opens_by_dof false with
    | [] => .ok (true, s)
    | sq :: _ =>
      (s.get_sq_options sq).foldl (solveStep (fun t => solve fuel t) sq)
        (.ok (false, s))

/-- Board input for `preload`: the source accepts a description list or an
81-character string (other inputs, e.g. a level name, hit the `-1` branch). -/
inductive BoardInput where
  | strIn (s : String)
  | listIn (l : List Nat)

/-- The indexed loop of `preload`: `fill` each nonzero entry, `unfill` each
zero entry, in index order. -/
def preloadStep (acc : Except String Sudoku) (p : Nat × Nat) :
    Except String Sudoku :=
  match acc with
  | .error e => .error e
  | .ok t =>
    if p.2 ≠ 0 then
      match t.fill p.1 p.2 with
      | .error e => .error e
      | .ok (t1, _) => .ok t1
    else t.unfill p.1

def preloadList (s : Sudoku) (l : List Nat) : Except String (Int × Sudoku) :=
  match l.enum.foldl preloadStep (.ok s) with
  | .error e => .error e
  | .ok t => .ok (0, t)

/-- `preload`: an 81-character digit string is converted with `int` and then
processed like a list; any other string returns `-1` untouched; a list of any
length is processed directly (no length check). -/
def Sudoku.preload (s : Sudoku) (bd : BoardInput) : Except String (Int × Sudoku) :=
  match bd with
  | .strIn str =>
    if str.length = 81 then
      if str.data.all (fun c => c.isDigit) then
        preloadList s (str.data.map (fun c => c.toNat - 48))
      else .error ("ValueError")
    else .ok (-1, s)
  | .listIn l => preloadList s l

/-- `__str__`: concatenate the decimal form of each cell, row-major. -/
def Sudoku.toStr (s : Sudoku) : String :=
  s.board.foldl (fun acc v => acc ++ toString v) ""

/-- One step of the `intersect` scan: fill square `i` if it has exactly one
option. -/
def intersectStep (acc : Except String (Nat × Sudoku)) (i : Nat) :
    Except String (Nat × Sudoku) :=
  match acc with
  | .error e => .error e
  | .ok (n, t) =>
    match t.get_sq_options i with
    | [v] =>
      match t.fill i v with
      | .error e => .error e
      | .ok (t1, _) => .ok (n + 1, t1)
    | _ => .ok (n, t)

/-- `intersect`: fill every open square that has exactly one option,
scanning squares in ascending order against the evolving state. -/
def Sudoku.intersect (s : Sudoku) : Except String (Nat × Sudoku) :=
  (List.range 81).foldl intersectStep (.ok (0, s))

/-- The subtraction loop of `_sub_factor`: remove from `opt1` every option
of every other open square of the unit. -/
def subOpts (t : Sudoku) (squares : List Nat) (sq1 : Nat) : List Nat :=
  squares.foldl
    (fun opt1 sq2 =>
      if t.board.getD sq2 0 ≠ 0 ∨ sq2 = sq1 then opt1
      else opt1.filter (fun v => v ∉ t.get_sq_options sq2))
    (t.get_sq_options sq1)

/-- One step of `_sub_factor`: fill `sq1` if its options minus all other
open squares' options leave a unique value. -/
def subFactorStep (squares : List Nat) (acc : Except String (Nat × Sudoku))
    (sq1 : Nat) : Except String (Nat × Sudoku) :=
  match acc with
  | .error e => .error e
  | .ok (n, t) =>
    if t.board.getD sq1 0 ≠ 0 then .ok (n, t)
    else
      match subOpts t squares sq1 with
      | [v] =>
        match t.fill sq1 v with
        | .error e => .error e
        | .ok (t1, _) => .ok (n + 1, t1)
      | _ => .ok (n, t)

/-- `_sub_factor`: for each open square of a unit, subtract the options of
the unit's other open squares; fill the square if a unique value remains. -/
def sub_factor (s : Sudoku) (squares : List Nat) : Except String (Nat × Sudoku) :=
  squares.foldl (subFactorStep squares) (.ok (0, s))

/-- One step of `subtract`: apply `_sub_factor` to one unit. -/
def subtractStep (acc : Except String (Nat × Sudoku)) (sqs : List Nat) :
    Except String (Nat × Sudoku) :=
  match acc with
  | .error e => .error e
  | .ok (n, t) =>
    match sub_factor t sqs with
    | .error e => .error e
    | .ok (m, t1) => .ok (n + m, t1)

/-- `subtract`: run `_sub_factor` over every box, then every row, then every
column, accumulating the number of squares filled. -/
def Sudoku.subtract (s : Sudoku) : Except String (Nat × Sudoku) :=
  ((List.range 9).map get_sqs_in_box ++ (List.range 9).map get_sqs_in_row ++
    (List.range 9).map get_sqs_in_col).foldl subtractStep (.ok (0, s))

/-- `'{0:02}'.format` for the technique counters of the log. -/
def pad2 (n : Nat) : String := if n < 10 then "0" ++ toString n else toString n

/-- The `while True: n = intersect(); if n == 0: break; t += n` loop. -/
def intersectLoop : Nat → Nat → Sudoku → Except String (Nat × Sudoku)
  | 0, _, _ => .error ("OutOfFuel")
  | fuel + 1, t, s =>
    match s.intersect with
    | .error e => .error e
    | .ok (n, s1) => if n = 0 then .ok (t, s1) else intersectLoop fuel (t + n) s1

/-- The analogous fixed-point loop for `subtract`. -/
def subtractLoop : Nat → Nat → Sudoku → Except String (Nat × Sudoku)
  | 0, _, _ => .error ("OutOfFuel")
  | fuel + 1, t, s =>
    match s.subtract with
    | .error e => .error e
    | .ok (n, s1) => if n = 0 then .ok (t, s1) else subtractLoop fuel (t + n) s1

/-- The deduction phase at the head of `hsolve`: run `intersect` to a fixed
point, log `iNN`, run `subtract` to a fixed point, log `sNN` (each token only
when its count is positive).  Each loop fills at least one square per
iteration, so fuel 100 can never be exhausted on an 81-square board. -/
def simplify (s : Sudoku) : Except String Sudoku :=
  match intersectLoop 100 0 s with
  | .error e => .error e
  | .ok (t, s1) =>
    let s2 := if 0 < t then { s1 with log := s1.log ++ "i" ++ pad2 t ++ " " } else s1
    match subtractLoop 100 0 s2 with
    | .error e => .error e
    | .ok (t2, s3) =>
      .ok (if 0 < t2 then { s3 with log := s3.log ++ "s" ++ pad2 t2 ++ " " } else s3)

/-- One step of the guess loop in `hsolve`: fill a candidate value, reset the
log to `savelog + '_r_ '`, recurse; on failure unfill the guessed square. -/
def hsolveStep (recur : Sudoku → Except String (Bool × Sudoku)) (savelog : String)
    (sq : Nat) (acc : Except String (Bool × Sudoku)) (v : Nat) :
    Except String (Bool × Sudoku) :=
  match acc with
  | .error e => .error e
  | .ok (true, s) => .ok (true, s)
  | .ok (false, s) =>
    match s.fill sq v with
    | .error e => .error e
    | .ok (s1, _) =>
      match recur { s1 with log := savelog ++ "_r_ " } with
      | .error e => .error e
      | .ok (true, s2) => .ok (true, s2)
      | .ok (false, s2) =>
        match s2.unfill sq with
        | .error e => .error e
        | .ok s3 => .ok (false, s3)

/-- The rollback loop of `hsolve`: unfill every listed square in order. -/
def unwindFold (s : Sudoku) : List Nat → Except String Sudoku
  | [] => .ok s
  | q :: rest =>
    match s.unfill q with
    | .error e => .error e
    | .ok s1 => unwindFold s1 rest

/-- `hsolve`: human-technique solver.  Simplify with the deduction passes,
then guess on the open square with the most options (the `for sq in open1`
loop always returns within its first iteration); on failure restore the log
to its post-deduction value and unfill every square filled since entry
(`set(opens).difference(self.get_opens())`, ascending). -/
def hsolve : Nat → Sudoku → Except String (Bool × Sudoku)
  | 0, _ => .error ("OutOfFuel")
  | fuel + 1, s =>
    let opens := s.get_opens
    if opens.isEmpty then .ok (true, s)
    else
      match simplify s with
      | .error e => .error e
      | .ok s1 =>
        let savelog := s1.log
        match s1.get_opens_by_dof true with
        | [] => .ok (true, s1)
        | sq :: _ =>
          match (s1.get_sq_options sq).foldl
              (hsolveStep (fun t => hsolve fuel t) savelog sq) (.ok (false, s1)) with
          | .error e => .error e
          | .ok (true, s2) => .ok (true, s2)
          | .ok (false, s2) =>
            let s3 := { s2 with log := savelog }
            match unwindFold s3 (opens.filter (fun q => s3.board.getD q 0 ≠ 0)) with
            | .error e => .error e
            | .ok s4 => .ok (false, s4)

/-- Load a game description into a fresh board (helper for concrete runs). -/
def loadGame (str : String) : Sudoku :=
  match Sudoku.new.preload (.strIn str) with
  | .ok (_, s) => s
  | .error _ => Sudoku.new

/-- The classic example puzzle of the regression data. -/
def puzzle1 : String :=
  "530070000600195000098000060800060003400803001700020006060000280000419005000080079"

/-- Its completion. -/
def solution1 : String :=
  "534678912672195348198342567859761423426853791713924856961537284287419635345286179"

/-- A consistent but unsolvable position: square 0 has no candidate (row 0
lacks only 5, column 0 already holds 5), square 28 likewise, and square 80 is
a naked single (9). -/
def badGame : String :=
  "034678912672195348198342567509761423426853791713924856961537284287419635345286170"

/-! ### Generic list helpers -/

theorem getD_set_self {α : Type} : ∀ (l : List α) (i : Nat) (a d : α),
    i < l.length → (l.set i a).getD i d = a
  | [], i, _, _, h => absurd h (by simp)
  | _ :: _, 0, _, _, _ => rfl
  | _ :: xs, i + 1, a, d, h => getD_set_self xs i a d (by simpa using h)

theorem getD_set_ne {α : Type} : ∀ (l : List α) (i j : Nat) (a d : α),
    i ≠ j → (l.set i a).getD j d = l.getD j d
  | [], _, _, _, _, _ => rfl
  | _ :: _, 0, 0, _, _, h => absurd rfl h
  | _ :: _, 0, _ + 1, _, _, _ => rfl
  | _ :: _, _ + 1, 0, _, _, _ => rfl
  | _ :: xs, i + 1, j + 1, a, d, h =>
    getD_set_ne xs i j a d (fun hij => h (by omega))

theorem set_getD_self {α : Type} : ∀ (l : List α) (i : Nat) (d : α),
    l.set i (l.getD i d) = l
  | [], _, _ => rfl
  | _ :: _, 0, _ => rfl
  | x :: xs, i + 1, d => congrArg (x :: ·) (set_getD_self xs i d)

theorem set_zero_of_getD_zero : ∀ (l : List Nat) (i : Nat),
    l.getD i 0 = 0 → l.set i 0 = l
  | [], _, _ => rfl
  | x :: xs, 0, h => by simp at h; simp [h]
  | x :: xs, i + 1, h => congrArg (x :: ·) (set_zero_of_getD_zero xs i h)

theorem list_ext_getD {α : Type} : ∀ (l₁ l₂ : List α) (d : α),
    l₁.length = l₂.length → (∀ i, i < l₁.length → l₁.getD i d = l₂.getD i d) →
    l₁ = l₂
  | [], [], _, _, _ => rfl
  | [], _ :: _, _, h, _ => by simp at h
  | _ :: _, [], _, h, _ => by simp at h
  | x :: xs, y :: ys, d, h, hp => by
    have hx : x = y := hp 0 (by simp)
    have ht : xs = ys := list_ext_getD xs ys d (by simpa using h)
      (fun i hi => hp (i + 1) (by simpa using hi))
    rw [hx, ht]

/-! ### Sorted candidate-set helpers -/

theorem mem_setInsert (v x : Nat) : ∀ (l : List Nat),
    x ∈ setInsert v l ↔ x = v ∨ x ∈ l
  | [] => by simp [setInsert]
  | y :: ys => by
    by_cases h : v < y
    · rw [setInsert, if_pos h]
      simp [List.mem_cons]
    · rw [setInsert, if_neg h]
      simp only [List.mem_cons, mem_setInsert v x ys]
      tauto

theorem sorted_setInsert (v : Nat) : ∀ (l : List Nat),
    l.Sorted (· < ·) → v ∉ l → (setInsert v l).Sorted (· < ·)
  | [], _, _ => by simp [setInsert]
  | y :: ys, hs, hv => by
    rw [List.sorted_cons] at hs
    by_cases h : v < y
    · rw [setInsert, if_pos h, List.sorted_cons]
      refine ⟨fun b hb => ?_, List.sorted_cons.2 hs⟩
      rcases List.mem_cons.1 hb with hb | hb
      · omega
      · have := hs.1 b hb; omega
    · have hvy : y < v := by
        rcases Nat.lt_trichotomy v y with h' | h' | h'
        · omega
        · exact absurd (h' ▸ List.mem_cons_self y ys) hv
        · omega
      rw [setInsert, if_neg h, List.sorted_cons]
      refine ⟨fun b hb => ?_, sorted_setInsert v ys hs.2
        (fun hm => hv (List.mem_cons_of_mem y hm))⟩
      rcases (mem_setInsert v b ys).1 hb with hb | hb
      · omega
      · exact hs.1 b hb

theorem setInsert_of_forall_lt (v : Nat) : ∀ (l : List Nat),
    (∀ b ∈ l, v < b) → setInsert v l = v :: l
  | [], _ => rfl
  | y :: ys, h => by rw [setInsert, if_pos (h y (List.mem_cons_self y ys))]

theorem setInsert_erase (v : Nat) : ∀ (l : List Nat),
    l.Sorted (· < ·) → v ∈ l → setInsert v (l.erase v) = l
  | [], _, hv => absurd hv (by simp)
  | y :: ys, hs, hv => by
    rw [List.sorted_cons] at hs
    by_cases h : v = y
    · subst h
      rw [List.erase_cons_head]
      exact setInsert_of_forall_lt v ys hs.1
    · have hvm : v ∈ ys := by
        rcases List.mem_cons.1 hv with h' | h'
        · exact absurd h' h
        · exact h'
      have hyv : y < v := hs.1 v hvm
      rw [List.erase_cons_tail (by simpa using Ne.symm h), setInsert,
        if_neg (by omega)]
      rw [setInsert_erase v ys hs.2 hvm]

theorem sorted_erase {l : List Nat} (v : Nat) (h : l.Sorted (· < ·)) :
    (l.erase v).Sorted (· < ·) :=
  h.sublist (List.erase_sublist v l)

theorem mem_erase_of_nodup {l : List Nat} {x v : Nat} (h : l.Nodup) :
    x ∈ l.erase v ↔ x ∈ l ∧ x ≠ v := by
  rw [h.mem_erase_iff]
  tauto

theorem not_mem_erase_self {l : List Nat} {v : Nat} (h : l.Nodup) :
    v ∉ l.erase v := fun hm => ((mem_erase_of_nodup h).1 hm).2 rfl

theorem sorted_lt_nodup {l : List Nat} (h : l.Sorted (· < ·)) : l.Nodup :=
  h.nodup

theorem sorted_ext : ∀ (l₁ l₂ : List Nat), l₁.Sorted (· < ·) →
    l₂.Sorted (· < ·) → (∀ x, x ∈ l₁ ↔ x ∈ l₂) → l₁ = l₂
  | [], [], _, _, _ => rfl
  | [], y :: _, _, _, hm => by
    have := (hm y).2 (List.mem_cons_self _ _); simp at this
  | x :: _, [], _, _, hm => by
    have := (hm x).1 (List.mem_cons_self _ _); simp at this
  | x :: xs, y :: ys, h₁, h₂, hm => by
    rw [List.sorted_cons] at h₁ h₂
    have hxy : x = y := by
      rcases List.mem_cons.1 ((hm x).1 (List.mem_cons_self _ _)) with h | h
      · exact h
      · have hyx : y < x := h₂.1 x h
        rcases List.mem_cons.1 ((hm y).2 (List.mem_cons_self _ _)) with h' | h'
        · omega
        · have := h₁.1 y h'; omega
    subst hxy
    have htail : ∀ z, z ∈ xs ↔ z ∈ ys := by
      intro z
      constructor
      · intro hz
        rcases List.mem_cons.1 ((hm z).1 (List.mem_cons_of_mem x hz)) with h | h
        · have := h₁.1 z hz; omega
        · exact h
      · intro hz
        rcases List.mem_cons.1 ((hm z).2 (List.mem_cons_of_mem x hz)) with h | h
        · have := h₂.1 z hz; omega
        · exact h
    rw [sorted_ext xs ys h₁.2 h₂.2 htail]

theorem filter_eq_erase_filter : ∀ (l : List Nat) (p q : Nat → Bool) (sq : Nat),
    l.Nodup → sq ∈ l → p sq = true → q sq = false →
    (∀ x ∈ l, x ≠ sq → p x = q x) → l.filter q = (l.filter p).erase sq
  | [], _, _, _, _, hsq, _, _, _ => absurd hsq (by simp)
  | x :: xs, p, q, sq, hnd, hsq, hp, hq, hpq => by
    rw [List.nodup_cons] at hnd
    by_cases hx : x = sq
    · subst hx
      have hqx : ¬ q x = true := by simp [hq]
      have hfilt : xs.filter q = xs.filter p := by
        apply List.filter_congr
        intro a ha
        exact (hpq a (List.mem_cons_of_mem x ha)
          (fun h => hnd.1 (h ▸ ha))).symm
      rw [List.filter_cons_of_neg hqx, List.filter_cons_of_pos hp,
        List.erase_cons_head, hfilt]
    · have hmem : sq ∈ xs := by
        rcases List.mem_cons.1 hsq with h | h
        · exact absurd h.symm hx
        · exact h
      have hpx : p x = q x := hpq x (List.mem_cons_self _ _) hx
      have ih := filter_eq_erase_filter xs p q sq hnd.2 hmem hp hq
        (fun a ha h => hpq a (List.mem_cons_of_mem x ha) h)
      by_cases hc : q x = true
      · rw [List.filter_cons_of_pos hc, List.filter_cons_of_pos (hpx ▸ hc),
          List.erase_cons_tail (by simpa using hx), ih]
      · rw [List.filter_cons_of_neg hc, List.filter_cons_of_neg (by rw [hpx]; exact hc), ih]

/-! ### Unit systems: rows, columns and boxes share one abstract shape -/

/-- A family of nine units: a unit index for each square and the member
squares of each unit. -/
structure UnitSys where
  uOf : Nat → Nat
  uSqs : Nat → List Nat

/-- The row family. -/
def rowSys : UnitSys := ⟨rowOf, get_sqs_in_row⟩

/-- The column family. -/
def colSys : UnitSys := ⟨colOf, get_sqs_in_col⟩

/-- The box family. -/
def boxSys : UnitSys := ⟨boxOf, get_sqs_in_box⟩

/-- Soundness of a unit family: membership characterisation, index bound and
distinctness of each unit's square list. -/
def UnitSysOk (U : UnitSys) : Prop :=
  (∀ u, u < 9 → ∀ q, q ∈ U.uSqs u ↔ q < 81 ∧ U.uOf q = u) ∧
  (∀ q, q < 81 → U.uOf q < 9) ∧
  (∀ u, u < 9 → (U.uSqs u).Nodup)

theorem rowSys_ok : UnitSysOk rowSys := by
  refine ⟨fun u hu q => ?_, fun q hq => ?_, fun u hu => ?_⟩
  · simp only [rowSys, get_sqs_in_row, List.mem_map, List.mem_range]
    constructor
    · rintro ⟨i, hi, rfl⟩
      unfold rowOf
      omega
    · rintro ⟨hq, hr⟩
      unfold rowOf at hr
      exact ⟨q - 9 * u, by omega, by omega⟩
  · unfold rowSys rowOf
    simp only
    omega
  · exact List.Nodup.map (fun a b h => by omega) (List.nodup_range _)

theorem colSys_ok : UnitSysOk colSys := by
  refine ⟨fun u hu q => ?_, fun q hq => ?_, fun u hu => ?_⟩
  · simp only [colSys, get_sqs_in_col, List.mem_map, List.mem_range]
    constructor
    · rintro ⟨i, hi, rfl⟩
      unfold colOf
      omega
    · rintro ⟨hq, hc⟩
      unfold colOf at hc
      exact ⟨q / 9, by omega, by omega⟩
  · unfold colSys colOf
    simp only
    omega
  · exact List.Nodup.map (fun a b h => by omega) (List.nodup_range _)

theorem boxSys_ok : UnitSysOk boxSys := by
  refine ⟨fun u hu q => ?_, fun q hq => ?_, fun u hu => ?_⟩
  · simp only [boxSys, get_sqs_in_box, List.mem_filter, List.mem_range,
      beq_iff_eq]
  · unfold boxSys boxOf
    simp only
    omega
  · exact List.Nodup.filter _ (List.nodup_range _)

/-- A square belongs to its own unit. -/
theorem mem_own_unit {U : UnitSys} (hU : UnitSysOk U) {sq : Nat} (hsq : sq < 81) :
    sq ∈ U.uSqs (U.uOf sq) :=
  (hU.1 (U.uOf sq) (hU.2.1 sq hsq) sq).2 ⟨hsq, rfl⟩

/-- Pairwise distinctness of the nonzero values on one unit. -/
def UnitDistinct (bd : List Nat) (sqs : List Nat) : Prop :=
  ∀ q1 ∈ sqs, ∀ q2 ∈ sqs, q1 ≠ q2 → bd.getD q1 0 ≠ 0 →
    bd.getD q1 0 ≠ bd.getD q2 0

/-- Consistency of one family of candidate sets with the board: each set is
strictly sorted, bounded, holds exactly the values of `{1..9}` not placed on
its unit, and the unit's placed values are pairwise distinct. -/
def famOk (bd : List Nat) (sets : List (List Nat)) (U : UnitSys) : Prop :=
  ∀ u, u < 9 →
    ((sets.getD u []).Sorted (· < ·) ∧ ∀ v ∈ sets.getD u [], 1 ≤ v ∧ v ≤ 9) ∧
    ((∀ v, v < 10 →
        (v ∈ sets.getD u [] ↔ 1 ≤ v ∧ ∀ q ∈ U.uSqs u, bd.getD q 0 ≠ v)) ∧
      UnitDistinct bd (U.uSqs u))

/-- The full state invariant maintained by `fill`/`unfill`. -/
def Wf (s : Sudoku) : Prop :=
  (s.board.length = 81 ∧ s.rows.length = 9 ∧ s.cols.length = 9 ∧
    s.boxes.length = 9) ∧
  (∀ i, i < 81 → s.board.getD i 0 ≤ 9) ∧
  famOk s.board s.rows rowSys ∧ famOk s.board s.cols colSys ∧
    famOk s.board s.boxes boxSys

/-- The unbounded membership characterisation, derived from the bounded one. -/
theorem famOk_mem_iff {bd : List Nat} {sets : List (List Nat)} {U : UnitSys}
    (h : famOk bd sets U) {u : Nat} (hu : u < 9) (v : Nat) :
    v ∈ sets.getD u [] ↔
      (1 ≤ v ∧ v ≤ 9) ∧ ∀ q ∈ U.uSqs u, bd.getD q 0 ≠ v := by
  by_cases hv : v < 10
  · rw [((h u hu).2.1 v hv)]
    constructor
    · rintro ⟨h1, h2⟩
      exact ⟨⟨h1, by omega⟩, h2⟩
    · rintro ⟨⟨h1, _⟩, h2⟩
      exact ⟨h1, h2⟩
  · constructor
    · intro hm
      have := (h u hu).1.2 v hm
      omega
    · rintro ⟨⟨_, h9⟩, _⟩
      omega

instance (bd sqs : List Nat) : Decidable (UnitDistinct bd sqs) := by
  unfold UnitDistinct
  infer_instance

instance (bd : List Nat) (sets : List (List Nat)) (U : UnitSys) :
    Decidable (famOk bd sets U) := by
  unfold famOk
  infer_instance

instance (s : Sudoku) : Decidable (Wf s) := by
  unfold Wf
  infer_instance

theorem wf_new : Wf Sudoku.new := by decide

/-! ### Explicit result states of `fill` and `unfill` -/

/-- The state produced by a successful `fill` of an open square. -/
def fillState (s : Sudoku) (sq v : Nat) : Sudoku :=
  { s with
    board := s.board.set sq v
    rows := s.rows.set (rowOf sq) ((s.rows.getD (rowOf sq) []).erase v)
    cols := s.cols.set (colOf sq) ((s.cols.getD (colOf sq) []).erase v)
    boxes := s.boxes.set (boxOf sq) ((s.boxes.getD (boxOf sq) []).erase v) }

/-- The completed-unit squares reported by a successful `fill`. -/
def fillCompleted (s : Sudoku) (sq v : Nat) : List Nat :=
  (if (s.rows.getD (rowOf sq) []).erase v = []
    then get_sqs_in_row (rowOf sq) else []) ++
  (if (s.cols.getD (colOf sq) []).erase v = []
    then get_sqs_in_col (colOf sq) else []) ++
  (if (s.boxes.getD (boxOf sq) []).erase v = []
    then get_sqs_in_box (boxOf sq) else [])

/-- The state produced by `unfill` of an occupied square. -/
def unfillState (s : Sudoku) (sq : Nat) : Sudoku :=
  { s with
    board := s.board.set sq 0
    rows := s.rows.set (rowOf sq)
      (setInsert (s.board.getD sq 0) (s.rows.getD (rowOf sq) []))
    cols := s.cols.set (colOf sq)
      (setInsert (s.board.getD sq 0) (s.cols.getD (colOf sq) []))
    boxes := s.boxes.set (boxOf sq)
      (setInsert (s.board.getD sq 0) (s.boxes.getD (boxOf sq) [])) }

/-! ### Invariant preservation for one unit family -/

theorem famOk_fill {U : UnitSys} (hU : UnitSysOk U) {bd : List Nat}
    {sets : List (List Nat)} (h : famOk bd sets U) {sq v : Nat}
    (hsq : sq < 81) (hbdlen : bd.length = 81) (hlen : sets.length = 9)
    (hbd : bd.getD sq 0 = 0) (hv1 : 1 ≤ v) (hv9 : v ≤ 9)
    (hmem : v ∈ sets.getD (U.uOf sq) []) :
    famOk (bd.set sq v)
      (sets.set (U.uOf sq) ((sets.getD (U.uOf sq) []).erase v)) U := by
  intro u hu
  have hr9 : U.uOf sq < 9 := hU.2.1 sq hsq
  have hnoconf : ∀ q ∈ U.uSqs (U.uOf sq), bd.getD q 0 ≠ v :=
    ((famOk_mem_iff h hr9 v).1 hmem).2
  by_cases hur : u = U.uOf sq
  · subst hur
    have hget : (sets.set (U.uOf sq) ((sets.getD (U.uOf sq) []).erase v)).getD (U.uOf sq) [] =
        (sets.getD (U.uOf sq) []).erase v := getD_set_self sets (U.uOf sq) _ [] (by omega)
    have hsort := (h (U.uOf sq) hu).1.1
    have hnd := sorted_lt_nodup hsort
    have hself : sq ∈ U.uSqs (U.uOf sq) := mem_own_unit hU hsq
    refine ⟨⟨?_, ?_⟩, ?_, ?_⟩
    · rw [hget]; exact sorted_erase v hsort
    · rw [hget]
      intro x hx
      exact (h (U.uOf sq) hu).1.2 x (List.mem_of_mem_erase hx)
    · intro x hx10
      rw [hget, mem_erase_of_nodup hnd, (h (U.uOf sq) hu).2.1 x hx10]
      constructor
      · rintro ⟨⟨hx1, hall⟩, hxv⟩
        refine ⟨hx1, fun q hq => ?_⟩
        by_cases hqs : q = sq
        · subst hqs
          rw [getD_set_self bd q v 0 (by omega)]
          omega
        · rw [getD_set_ne bd sq q v 0 (fun h => hqs h.symm)]
          exact hall q hq
      · rintro ⟨hx1, hall⟩
        have hxv : x ≠ v := by
          have := hall sq hself
          rw [getD_set_self bd sq v 0 (by omega)] at this
          omega
        refine ⟨⟨hx1, fun q hq => ?_⟩, hxv⟩
        by_cases hqs : q = sq
        · subst hqs; omega
        · have := hall q hq
          rwa [getD_set_ne bd sq q v 0 (fun h => hqs h.symm)] at this
    · intro q1 hq1 q2 hq2 hne hnz
      by_cases h1 : q1 = sq
      · subst h1
        rw [getD_set_self bd q1 v 0 (by omega)]
        rw [getD_set_ne bd q1 q2 v 0 (fun h => hne h)]
        exact fun h => hnoconf q2 hq2 h.symm
      · rw [getD_set_ne bd sq q1 v 0 (fun h => h1 h.symm)] at hnz ⊢
        by_cases h2 : q2 = sq
        · subst h2
          rw [getD_set_self bd q2 v 0 (by omega)]
          exact hnoconf q1 hq1
        · rw [getD_set_ne bd sq q2 v 0 (fun h => h2 h.symm)]
          exact (h (U.uOf sq) hu).2.2 q1 hq1 q2 hq2 hne hnz
  · have hget : (sets.set (U.uOf sq) ((sets.getD (U.uOf sq) []).erase v)).getD
        u [] = sets.getD u [] := getD_set_ne sets (U.uOf sq) u _ [] (fun h => hur h.symm)
    have hqne : ∀ q ∈ U.uSqs u, q ≠ sq := by
      intro q hq hqs
      subst hqs
      exact hur (((hU.1 u hu q).1 hq).2.symm ▸ rfl)
    have hbval : ∀ q ∈ U.uSqs u, (bd.set sq v).getD q 0 = bd.getD q 0 :=
      fun q hq => getD_set_ne bd sq q v 0 (fun h => hqne q hq h.symm)
    refine ⟨⟨?_, ?_⟩, ?_, ?_⟩
    · rw [hget]; exact (h u hu).1.1
    · rw [hget]; exact (h u hu).1.2
    · intro x hx10
      rw [hget, (h u hu).2.1 x hx10]
      constructor
      · rintro ⟨hx1, hall⟩
        exact ⟨hx1, fun q hq => (hbval q hq).symm ▸ hall q hq⟩
      · rintro ⟨hx1, hall⟩
        exact ⟨hx1, fun q hq => (hbval q hq) ▸ hall q hq⟩
    · intro q1 hq1 q2 hq2 hne hnz
      rw [hbval q1 hq1] at hnz ⊢
      rw [hbval q2 hq2]
      exact (h u hu).2.2 q1 hq1 q2 hq2 hne hnz

theorem famOk_unfill {U : UnitSys} (hU : UnitSysOk U) {bd : List Nat}
    {sets : List (List Nat)} (h : famOk bd sets U) {sq v : Nat}
    (hsq : sq < 81) (hbdlen : bd.length = 81) (hlen : sets.length = 9)
    (hbd : bd.getD sq 0 = v) (hv1 : 1 ≤ v) (hv9 : v ≤ 9) :
    famOk (bd.set sq 0)
      (sets.set (U.uOf sq) (setInsert v (sets.getD (U.uOf sq) []))) U := by
  intro u hu
  have hr9 : U.uOf sq < 9 := hU.2.1 sq hsq
  have hself : sq ∈ U.uSqs (U.uOf sq) := mem_own_unit hU hsq
  have hnm : v ∉ sets.getD (U.uOf sq) [] := by
    intro hm
    exact ((famOk_mem_iff h hr9 v).1 hm).2 sq hself hbd
  by_cases hur : u = U.uOf sq
  · subst hur
    have hget : (sets.set (U.uOf sq) (setInsert v (sets.getD (U.uOf sq) []))).getD (U.uOf sq) [] =
        setInsert v (sets.getD (U.uOf sq) []) := getD_set_self sets (U.uOf sq) _ [] (by omega)
    refine ⟨⟨?_, ?_⟩, ?_, ?_⟩
    · rw [hget]; exact sorted_setInsert v _ (h (U.uOf sq) hu).1.1 hnm
    · rw [hget]
      intro x hx
      rcases (mem_setInsert v x _).1 hx with hx | hx
      · omega
      · exact (h (U.uOf sq) hu).1.2 x hx
    · intro x hx10
      rw [hget, mem_setInsert, (h (U.uOf sq) hu).2.1 x hx10]
      constructor
      · rintro (rfl | ⟨hx1, hall⟩)
        · refine ⟨by omega, fun q hq => ?_⟩
          by_cases hqs : q = sq
          · subst hqs
            rw [getD_set_self bd q 0 0 (by omega)]
            omega
          · rw [getD_set_ne bd sq q 0 0 (fun h => hqs h.symm)]
            intro hq'
            exact (h (U.uOf sq) hu).2.2 sq hself q hq (fun h => hqs h.symm)
              (by omega) (by omega)
        · refine ⟨hx1, fun q hq => ?_⟩
          by_cases hqs : q = sq
          · subst hqs
            rw [getD_set_self bd q 0 0 (by omega)]
            omega
          · rw [getD_set_ne bd sq q 0 0 (fun h => hqs h.symm)]
            exact hall q hq
      · rintro ⟨hx1, hall⟩
        by_cases hxv : x = v
        · exact Or.inl hxv
        · refine Or.inr ⟨hx1, fun q hq => ?_⟩
          by_cases hqs : q = sq
          · subst hqs
            omega
          · have := hall q hq
            rwa [getD_set_ne bd sq q 0 0 (fun h => hqs h.symm)] at this
    · intro q1 hq1 q2 hq2 hne hnz
      have h1 : q1 ≠ sq := by
        intro hc
        subst hc
        rw [getD_set_self bd q1 0 0 (by omega)] at hnz
        omega
      rw [getD_set_ne bd sq q1 0 0 (fun h => h1 h.symm)] at hnz ⊢
      by_cases h2 : q2 = sq
      · subst h2
        rw [getD_set_self bd q2 0 0 (by omega)]
        omega
      · rw [getD_set_ne bd sq q2 0 0 (fun h => h2 h.symm)]
        exact (h (U.uOf sq) hu).2.2 q1 hq1 q2 hq2 hne hnz
  · have hget : (sets.set (U.uOf sq) (setInsert v (sets.getD (U.uOf sq) []))).getD
        u [] = sets.getD u [] := getD_set_ne sets (U.uOf sq) u _ [] (fun h => hur h.symm)
    have hqne : ∀ q ∈ U.uSqs u, q ≠ sq := by
      intro q hq hqs
      subst hqs
      exact hur (((hU.1 u hu q).1 hq).2.symm ▸ rfl)
    have hbval : ∀ q ∈ U.uSqs u, (bd.set sq 0).getD q 0 = bd.getD q 0 :=
      fun q hq => getD_set_ne bd sq q 0 0 (fun h => hqne q hq h.symm)
    refine ⟨⟨?_, ?_⟩, ?_, ?_⟩
    · rw [hget]; exact (h u hu).1.1
    · rw [hget]; exact (h u hu).1.2
    · intro x hx10
      rw [hget, (h u hu).2.1 x hx10]
      constructor
      · rintro ⟨hx1, hall⟩
        exact ⟨hx1, fun q hq => (hbval q hq).symm ▸ hall q hq⟩
      · rintro ⟨hx1, hall⟩
        exact ⟨hx1, fun q hq => (hbval q hq) ▸ hall q hq⟩
    · intro q1 hq1 q2 hq2 hne hnz
      rw [hbval q1 hq1] at hnz ⊢
      rw [hbval q2 hq2]
      exact (h u hu).2.2 q1 hq1 q2 hq2 hne hnz

/-! ### Operation specifications -/

theorem unfill_noop {s : Sudoku} {sq : Nat} (hsq : sq < 81)
    (h0 : s.board.getD sq 0 = 0) : s.unfill sq = .ok s := by
  unfold Sudoku.unfill
  rw [if_pos hsq]
  simp only [h0]
  exact if_pos trivial

/-- A placed value is absent from the three candidate sets of its square. -/
theorem wf_not_mem_of_filled {s : Sudoku} (hw : Wf s) {sq : Nat}
    (hsq : sq < 81) (hnz : s.board.getD sq 0 ≠ 0) :
    s.board.getD sq 0 ∉ s.rows.getD (rowOf sq) [] ∧
    s.board.getD sq 0 ∉ s.cols.getD (colOf sq) [] ∧
    s.board.getD sq 0 ∉ s.boxes.getD (boxOf sq) [] := by
  refine ⟨fun hm => ?_, fun hm => ?_, fun hm => ?_⟩
  · exact ((famOk_mem_iff hw.2.2.1 (rowSys_ok.2.1 sq hsq) _).1 hm).2 sq
      (mem_own_unit rowSys_ok hsq) rfl
  · exact ((famOk_mem_iff hw.2.2.2.1 (colSys_ok.2.1 sq hsq) _).1 hm).2 sq
      (mem_own_unit colSys_ok hsq) rfl
  · exact ((famOk_mem_iff hw.2.2.2.2 (boxSys_ok.2.1 sq hsq) _).1 hm).2 sq
      (mem_own_unit boxSys_ok hsq) rfl

theorem unfill_filled_eq {s : Sudoku} (hw : Wf s) {sq : Nat} (hsq : sq < 81)
    (hnz : s.board.getD sq 0 ≠ 0) : s.unfill sq = .ok (unfillState s sq) := by
  obtain ⟨hr, hc, hb⟩ := wf_not_mem_of_filled hw hsq hnz
  unfold Sudoku.unfill
  rw [if_pos hsq]
  simp only [unfillState]
  rw [if_neg hnz, if_neg (by push_neg; exact ⟨hr, hc, hb⟩)]

theorem unfillState_wf {s : Sudoku} (hw : Wf s) {sq : Nat} (hsq : sq < 81)
    (hnz : s.board.getD sq 0 ≠ 0) : Wf (unfillState s sq) := by
  obtain ⟨⟨hbl, hrl, hcl, hxl⟩, hbnd, hfr, hfc, hfb⟩ := hw
  have hv9 : s.board.getD sq 0 ≤ 9 := hbnd sq hsq
  have hv1 : 1 ≤ s.board.getD sq 0 := by omega
  refine ⟨⟨by simp [unfillState, hbl], by simp [unfillState, hrl],
    by simp [unfillState, hcl], by simp [unfillState, hxl]⟩, ?_, ?_, ?_, ?_⟩
  · intro i hi
    by_cases his : i = sq
    · subst his
      rw [show (unfillState s i).board = s.board.set i 0 from rfl,
        getD_set_self s.board i 0 0 (by omega)]
      omega
    · rw [show (unfillState s sq).board = s.board.set sq 0 from rfl,
        getD_set_ne s.board sq i 0 0 (fun h => his h.symm)]
      exact hbnd i hi
  · exact famOk_unfill rowSys_ok hfr hsq hbl hrl rfl hv1 hv9
  · exact famOk_unfill colSys_ok hfc hsq hbl hcl rfl hv1 hv9
  · exact famOk_unfill boxSys_ok hfb hsq hbl hxl rfl hv1 hv9

theorem unfill_wf {s s' : Sudoku} {sq : Nat} (hw : Wf s)
    (h : s.unfill sq = .ok s') : Wf s' := by
  by_cases hsq : sq < 81
  · by_cases hnz : s.board.getD sq 0 = 0
    · rw [unfill_noop hsq hnz] at h
      injection h with h2
      exact h2 ▸ hw
    · rw [unfill_filled_eq hw hsq hnz] at h
      have := Except.ok.inj h
      exact this ▸ unfillState_wf hw hsq hnz
  · unfold Sudoku.unfill at h
    rw [if_neg hsq] at h
    exact absurd h (by simp)

theorem fill_ok_core {s : Sudoku} {sq v : Nat} (hsq : sq < 81)
    (hopen : s.board.getD sq 0 = 0) (hv19 : 1 ≤ v ∧ v ≤ 9)
    (hr : v ∈ s.rows.getD (rowOf sq) []) (hc : v ∈ s.cols.getD (colOf sq) [])
    (hb : v ∈ s.boxes.getD (boxOf sq) []) :
    s.fill sq v = .ok (fillState s sq v, fillCompleted s sq v) := by
  unfold Sudoku.fill
  rw [if_pos (⟨hsq, by omega⟩ : sq < 81 ∧ v < 10)]
  rw [if_neg (show ¬s.board.getD sq 0 ≠ 0 by omega)]
  show (if v = 0 then _ else _) = _
  rw [if_neg (show ¬v = 0 by omega), if_pos ⟨hr, hc, hb⟩]
  rfl

theorem fill_ok {s : Sudoku} {sq v : Nat} (hw : Wf s) (hsq : sq < 81)
    (hopen : s.board.getD sq 0 = 0)
    (hr : v ∈ s.rows.getD (rowOf sq) []) (hc : v ∈ s.cols.getD (colOf sq) [])
    (hb : v ∈ s.boxes.getD (boxOf sq) []) :
    s.fill sq v = .ok (fillState s sq v, fillCompleted s sq v) :=
  fill_ok_core hsq hopen ((hw.2.2.1 (rowOf sq) (rowSys_ok.2.1 sq hsq)).1.2 v hr)
    hr hc hb

theorem fillState_wf {s : Sudoku} {sq v : Nat} (hw : Wf s) (hsq : sq < 81)
    (hopen : s.board.getD sq 0 = 0)
    (hr : v ∈ s.rows.getD (rowOf sq) []) (hc : v ∈ s.cols.getD (colOf sq) [])
    (hb : v ∈ s.boxes.getD (boxOf sq) []) : Wf (fillState s sq v) := by
  obtain ⟨⟨hbl, hrl, hcl, hxl⟩, hbnd, hfr, hfc, hfb⟩ := hw
  have hv19 : 1 ≤ v ∧ v ≤ 9 :=
    (hfr (rowOf sq) (rowSys_ok.2.1 sq hsq)).1.2 v hr
  refine ⟨⟨by simp [fillState, hbl], by simp [fillState, hrl],
    by simp [fillState, hcl], by simp [fillState, hxl]⟩, ?_, ?_, ?_, ?_⟩
  · intro i hi
    by_cases his : i = sq
    · subst his
      rw [show (fillState s i v).board = s.board.set i v from rfl,
        getD_set_self s.board i v 0 (by omega)]
      omega
    · rw [show (fillState s sq v).board = s.board.set sq v from rfl,
        getD_set_ne s.board sq i v 0 (fun h => his h.symm)]
      exact hbnd i hi
  · exact famOk_fill rowSys_ok hfr hsq hbl hrl hopen hv19.1 hv19.2 hr
  · exact famOk_fill colSys_ok hfc hsq hbl hcl hopen hv19.1 hv19.2 hc
  · exact famOk_fill boxSys_ok hfb hsq hbl hxl hopen hv19.1 hv19.2 hb

theorem fill_illegal {s : Sudoku} {sq v : Nat} (hsq : sq < 81) (hv0 : v ≠ 0)
    (hv : v < 10) (hopen : s.board.getD sq 0 = 0)
    (hno : ¬(v ∈ s.rows.getD (rowOf sq) [] ∧ v ∈ s.cols.getD (colOf sq) [] ∧
      v ∈ s.boxes.getD (boxOf sq) [])) :
    s.fill sq v = .error ("IllegalAssignment") := by
  unfold Sudoku.fill
  rw [if_pos (⟨hsq, hv⟩ : sq < 81 ∧ v < 10)]
  rw [if_neg (show ¬s.board.getD sq 0 ≠ 0 by omega)]
  show (if v = 0 then _ else _) = _
  rw [if_neg hv0, if_neg hno]

/-- `fill` then `unfill` restores the exact prior state. -/
theorem fillState_unfill {s : Sudoku} {sq v : Nat} (hw : Wf s) (hsq : sq < 81)
    (hopen : s.board.getD sq 0 = 0)
    (hr : v ∈ s.rows.getD (rowOf sq) []) (hc : v ∈ s.cols.getD (colOf sq) [])
    (hb : v ∈ s.boxes.getD (boxOf sq) []) :
    (fillState s sq v).unfill sq = .ok s := by
  obtain ⟨⟨hbl, hrl, hcl, hxl⟩, hbnd, hfr, hfc, hfb⟩ := hw
  have hv19 : 1 ≤ v ∧ v ≤ 9 :=
    (hfr (rowOf sq) (rowSys_ok.2.1 sq hsq)).1.2 v hr
  have hbv : (fillState s sq v).board.getD sq 0 = v :=
    getD_set_self s.board sq v 0 (by omega)
  have hgr : (fillState s sq v).rows.getD (rowOf sq) [] =
      (s.rows.getD (rowOf sq) []).erase v :=
    getD_set_self s.rows (rowOf sq) _ [] (by rw [hrl]; exact rowSys_ok.2.1 sq hsq)
  have hgc : (fillState s sq v).cols.getD (colOf sq) [] =
      (s.cols.getD (colOf sq) []).erase v :=
    getD_set_self s.cols (colOf sq) _ [] (by rw [hcl]; exact colSys_ok.2.1 sq hsq)
  have hgb : (fillState s sq v).boxes.getD (boxOf sq) [] =
      (s.boxes.getD (boxOf sq) []).erase v :=
    getD_set_self s.boxes (boxOf sq) _ [] (by rw [hxl]; exact boxSys_ok.2.1 sq hsq)
  unfold Sudoku.unfill
  rw [if_pos hsq]
  simp only [hbv, hgr, hgc, hgb]
  rw [if_neg (show ¬v = 0 by omega)]
  rw [if_neg (by
    push_neg
    refine ⟨not_mem_erase_self (sorted_lt_nodup (hfr (rowOf sq)
        (rowSys_ok.2.1 sq hsq)).1.1),
      not_mem_erase_self (sorted_lt_nodup (hfc (colOf sq)
        (colSys_ok.2.1 sq hsq)).1.1),
      not_mem_erase_self (sorted_lt_nodup (hfb (boxOf sq)
        (boxSys_ok.2.1 sq hsq)).1.1)⟩)]
  have heqb : (fillState s sq v).board.set sq 0 = s.board := by
    rw [show (fillState s sq v).board = s.board.set sq v from rfl,
      List.set_set, set_zero_of_getD_zero s.board sq hopen]
  have heqr : (fillState s sq v).rows.set (rowOf sq)
      (setInsert v ((s.rows.getD (rowOf sq) []).erase v)) = s.rows := by
    rw [setInsert_erase v _ (hfr (rowOf sq) (rowSys_ok.2.1 sq hsq)).1.1 hr,
      show (fillState s sq v).rows = s.rows.set (rowOf sq)
        ((s.rows.getD (rowOf sq) []).erase v) from rfl,
      List.set_set, set_getD_self]
  have heqc : (fillState s sq v).cols.set (colOf sq)
      (setInsert v ((s.cols.getD (colOf sq) []).erase v)) = s.cols := by
    rw [setInsert_erase v _ (hfc (colOf sq) (colSys_ok.2.1 sq hsq)).1.1 hc,
      show (fillState s sq v).cols = s.cols.set (colOf sq)
        ((s.cols.getD (colOf sq) []).erase v) from rfl,
      List.set_set, set_getD_self]
  have heqx : (fillState s sq v).boxes.set (boxOf sq)
      (setInsert v ((s.boxes.getD (boxOf sq) []).erase v)) = s.boxes := by
    rw [setInsert_erase v _ (hfb (boxOf sq) (boxSys_ok.2.1 sq hsq)).1.1 hb,
      show (fillState s sq v).boxes = s.boxes.set (boxOf sq)
        ((s.boxes.getD (boxOf sq) []).erase v) from rfl,
      List.set_set, set_getD_self]
  rw [heqb, heqr, heqc, heqx]
  rfl


theorem fill_wf {s s' : Sudoku} {sq v : Nat} {comp : List Nat} (hw : Wf s)
    (h : s.fill sq v = .ok (s', comp)) : Wf s' := by
  unfold Sudoku.fill at h
  by_cases hrange : sq < 81 ∧ v < 10
  case neg =>
    rw [if_neg hrange] at h
    exact absurd h (by simp)
  rw [if_pos hrange] at h
  have hmain : ∀ s1 : Sudoku, Wf s1 → s1.board.getD sq 0 = 0 →
      (if v = 0 then Except.ok (s1, ([] : List Nat))
        else
          if v ∈ s1.rows.getD (rowOf sq) [] ∧ v ∈ s1.cols.getD (colOf sq) [] ∧
              v ∈ s1.boxes.getD (boxOf sq) [] then
            Except.ok (fillState s1 sq v, fillCompleted s1 sq v)
          else Except.error ("IllegalAssignment")) = Except.ok (s', comp) →
      Wf s' := by
    intro s1 hw1 hopen1 hh
    by_cases hv0 : v = 0
    · rw [if_pos hv0] at hh
      injection hh with hh
      have := congrArg Prod.fst hh
      simp only at this
      exact this ▸ hw1
    · rw [if_neg hv0] at hh
      by_cases hleg : v ∈ s1.rows.getD (rowOf sq) [] ∧
          v ∈ s1.cols.getD (colOf sq) [] ∧ v ∈ s1.boxes.getD (boxOf sq) []
      · rw [if_pos hleg] at hh
        injection hh with hh
        have := congrArg Prod.fst hh
        simp only at this
        exact this ▸ fillState_wf hw1 hrange.1 hopen1 hleg.1 hleg.2.1 hleg.2.2
      · rw [if_neg hleg] at hh
        exact absurd hh (by simp)
  by_cases hocc : s.board.getD sq 0 ≠ 0
  · rw [if_pos hocc, unfill_filled_eq hw hrange.1 hocc] at h
    have hop : (unfillState s sq).board.getD sq 0 = 0 := by
      rw [show (unfillState s sq).board = s.board.set sq 0 from rfl,
        getD_set_self s.board sq 0 0 (by rw [hw.1.1]; exact hrange.1)]
    exact hmain (unfillState s sq) (unfillState_wf hw hrange.1 hocc) hop h
  · rw [if_neg hocc] at h
    push_neg at hocc
    exact hmain s hw hocc h

/-! ### Open squares and candidate lists -/

theorem mem_get_opens {s : Sudoku} {q : Nat} :
    q ∈ s.get_opens ↔ q < 81 ∧ s.board.getD q 0 = 0 := by
  unfold Sudoku.get_opens
  simp [List.mem_filter, List.mem_range]

theorem nodup_get_opens (s : Sudoku) : s.get_opens.Nodup :=
  List.Nodup.filter _ (List.nodup_range _)

/-- The number of open squares (length of `get_opens`). -/
def openCount (s : Sudoku) : Nat := s.get_opens.length

theorem get_opens_fillState {s : Sudoku} {sq v : Nat} (hsq : sq < 81)
    (hbl : s.board.length = 81) (hopen : s.board.getD sq 0 = 0) (hv : v ≠ 0) :
    (fillState s sq v).get_opens = s.get_opens.erase sq := by
  unfold Sudoku.get_opens
  exact filter_eq_erase_filter (List.range 81) _ _ sq (List.nodup_range _)
    (List.mem_range.2 hsq) (by simp only [beq_iff_eq]; exact hopen)
    (by
      rw [show (fillState s sq v).board = s.board.set sq v from rfl,
        getD_set_self s.board sq v 0 (by omega)]
      simp [hv])
    (fun x _ hx => by
      rw [show (fillState s sq v).board = s.board.set sq v from rfl,
        getD_set_ne s.board sq x v 0 (fun hh => hx hh.symm)])

theorem openCount_fillState {s : Sudoku} {sq v : Nat} (hsq : sq < 81)
    (hbl : s.board.length = 81) (hopen : s.board.getD sq 0 = 0) (hv : v ≠ 0) :
    openCount (fillState s sq v) + 1 = openCount s := by
  unfold openCount
  rw [get_opens_fillState hsq hbl hopen hv,
    List.length_erase_of_mem (mem_get_opens.2 ⟨hsq, hopen⟩)]
  have : 0 < s.get_opens.length :=
    List.length_pos_of_mem (mem_get_opens.2 ⟨hsq, hopen⟩)
  omega

theorem mem_options {s : Sudoku} {sq v : Nat} :
    v ∈ s.get_sq_options sq ↔
      s.board.getD sq 0 = 0 ∧ v ∈ s.rows.getD (rowOf sq) [] ∧
      v ∈ s.cols.getD (colOf sq) [] ∧ v ∈ s.boxes.getD (boxOf sq) [] := by
  unfold Sudoku.get_sq_options
  by_cases h : s.board.getD sq 0 ≠ 0
  · rw [if_pos h]
    simp only [List.not_mem_nil, false_iff]
    rintro ⟨h0, _⟩
    exact h h0
  · rw [if_neg h]
    push_neg at h
    simp only [List.mem_filter, decide_eq_true_eq, h]
    tauto

theorem mem_insertByKey {rev : Bool} {y x : Nat × Nat} :
    ∀ l : List (Nat × Nat), x ∈ insertByKey rev y l ↔ x = y ∨ x ∈ l
  | [] => by simp [insertByKey]
  | z :: zs => by
    unfold insertByKey
    by_cases h : if rev = true then z.2 < y.2 else y.2 < z.2
    · rw [if_pos h]
      simp [List.mem_cons]
    · rw [if_neg h]
      simp only [List.mem_cons, mem_insertByKey zs]
      tauto

theorem mem_sortfold {rev : Bool} {x : Nat × Nat} :
    ∀ (l acc : List (Nat × Nat)),
      x ∈ l.foldl (fun a y => insertByKey rev y a) acc ↔ x ∈ acc ∨ x ∈ l
  | [], acc => by simp
  | z :: zs, acc => by
    rw [List.foldl_cons, mem_sortfold zs]
    simp only [mem_insertByKey, List.mem_cons]
    tauto

theorem mem_get_opens_by_dof {s : Sudoku} {rev : Bool} {q : Nat} :
    q ∈ s.get_opens_by_dof rev ↔ q ∈ s.get_opens := by
  unfold Sudoku.get_opens_by_dof
  simp only [List.mem_map, mem_sortfold, List.not_mem_nil, false_or]
  constructor
  · rintro ⟨p, hp, rfl⟩
    obtain ⟨i, hi, rfl⟩ := hp
    exact hi
  · intro hq
    exact ⟨(q, (s.get_sq_options q).length), ⟨q, hq, rfl⟩, rfl⟩

theorem get_opens_by_dof_nil {s : Sudoku} {rev : Bool} :
    s.get_opens_by_dof rev = [] ↔ s.get_opens = [] := by
  constructor
  · intro h
    refine List.eq_nil_iff_forall_not_mem.2 (fun q hq => ?_)
    have h2 : q ∈ s.get_opens_by_dof rev := mem_get_opens_by_dof.2 hq
    rw [h] at h2
    exact absurd h2 (by simp)
  · intro h
    refine List.eq_nil_iff_forall_not_mem.2 (fun q hq => ?_)
    have := mem_get_opens_by_dof.1 hq
    rw [h] at this
    exact absurd this (by simp)

/-- Under the invariant, the candidate sets are a function of the board:
two well-formed states with equal boards have equal candidate sets. -/
theorem wf_sets_eq {s1 s2 : Sudoku} (h1 : Wf s1) (h2 : Wf s2)
    (hb : s1.board = s2.board) :
    s1.rows = s2.rows ∧ s1.cols = s2.cols ∧ s1.boxes = s2.boxes := by
  refine ⟨?_, ?_, ?_⟩
  · refine list_ext_getD s1.rows s2.rows [] (by rw [h1.1.2.1, h2.1.2.1]) ?_
    intro u hu
    rw [h1.1.2.1] at hu
    refine sorted_ext _ _ (h1.2.2.1 u hu).1.1 (h2.2.2.1 u hu).1.1 (fun x => ?_)
    rw [famOk_mem_iff h1.2.2.1 hu x, famOk_mem_iff h2.2.2.1 hu x, hb]
  · refine list_ext_getD s1.cols s2.cols [] (by rw [h1.1.2.2.1, h2.1.2.2.1]) ?_
    intro u hu
    rw [h1.1.2.2.1] at hu
    refine sorted_ext _ _ (h1.2.2.2.1 u hu).1.1 (h2.2.2.2.1 u hu).1.1 (fun x => ?_)
    rw [famOk_mem_iff h1.2.2.2.1 hu x, famOk_mem_iff h2.2.2.2.1 hu x, hb]
  · refine list_ext_getD s1.boxes s2.boxes [] (by rw [h1.1.2.2.2, h2.1.2.2.2]) ?_
    intro u hu
    rw [h1.1.2.2.2] at hu
    refine sorted_ext _ _ (h1.2.2.2.2 u hu).1.1 (h2.2.2.2.2 u hu).1.1 (fun x => ?_)
    rw [famOk_mem_iff h1.2.2.2.2 hu x, famOk_mem_iff h2.2.2.2.2 hu x, hb]

/-! ### Completions and solvability -/

/-- `c` agrees with `bd` on every occupied cell of `bd`. -/
def cellsAgree (bd c : List Nat) : Prop :=
  ∀ i, i < 81 → bd.getD i 0 ≠ 0 → c.getD i 0 = bd.getD i 0

/-- A fully filled, constraint-satisfying board: 81 cells, all values 1–9,
and no repeated value inside any row, column or box. -/
def ValidFull (c : List Nat) : Prop :=
  c.length = 81 ∧ (∀ i, i < 81 → 1 ≤ c.getD i 0 ∧ c.getD i 0 ≤ 9) ∧
  ∀ u, u < 9 →
    ((get_sqs_in_row u).map (fun q => c.getD q 0)).Nodup ∧
    ((get_sqs_in_col u).map (fun q => c.getD q 0)).Nodup ∧
    ((get_sqs_in_box u).map (fun q => c.getD q 0)).Nodup

/-- A legal completion of a partial board. -/
def Completion (bd c : List Nat) : Prop := ValidFull c ∧ cellsAgree bd c

/-- The board has at least one legal completion. -/
def Solvable (s : Sudoku) : Prop := ∃ c, Completion s.board c

instance (bd c : List Nat) : Decidable (cellsAgree bd c) := by
  unfold cellsAgree
  infer_instance

instance (c : List Nat) : Decidable (ValidFull c) := by
  unfold ValidFull
  infer_instance

instance (bd c : List Nat) : Decidable (Completion bd c) := by
  unfold Completion
  infer_instance

theorem nodup_map_pairwise {c sqs : List Nat}
    (h : (sqs.map (fun q => c.getD q 0)).Nodup) :
    ∀ q1 ∈ sqs, ∀ q2 ∈ sqs, q1 ≠ q2 → c.getD q1 0 ≠ c.getD q2 0 := by
  rw [List.Nodup, List.pairwise_map] at h
  intro q1 h1 q2 h2 hne
  have hsym : Symmetric (fun a b : Nat => c.getD a 0 ≠ c.getD b 0) :=
    fun a b hab heq => hab heq.symm
  exact h.forall hsym h1 h2 hne

/-- A filled well-formed board is a valid full board. -/
theorem wf_filled_valid {s : Sudoku} (hw : Wf s)
    (hfull : ∀ i, i < 81 → s.board.getD i 0 ≠ 0) : ValidFull s.board := by
  have hone : ∀ {U : UnitSys} (sets : List (List Nat)), UnitSysOk U →
      famOk s.board sets U →
      ∀ u, u < 9 → ((U.uSqs u).map (fun q => s.board.getD q 0)).Nodup := by
    intro U sets hU hfam u hu
    rw [List.Nodup, List.pairwise_map]
    refine List.Pairwise.imp_of_mem ?_ (hU.2.2 u hu)
    intro q1 q2 h1 h2 hne
    exact (hfam u hu).2.2 q1 h1 q2 h2 hne
      (hfull q1 ((hU.1 u hu q1).1 h1).1)
  refine ⟨hw.1.1, fun i hi => ?_, fun u hu =>
    ⟨hone s.rows rowSys_ok hw.2.2.1 u hu, hone s.cols colSys_ok hw.2.2.2.1 u hu,
      hone s.boxes boxSys_ok hw.2.2.2.2 u hu⟩⟩
  have := hw.2.1 i hi
  have := hfull i hi
  omega

/-- Any completion assigns each open square a value from its candidate set. -/
theorem completion_mem_options {s : Sudoku} {c : List Nat} (hw : Wf s)
    (hcomp : Completion s.board c) {sq : Nat} (hsq : sq < 81)
    (hopen : s.board.getD sq 0 = 0) : c.getD sq 0 ∈ s.get_sq_options sq := by
  obtain ⟨⟨hclen, hcbnd, hcnodup⟩, hagree⟩ := hcomp
  have hv19 := hcbnd sq hsq
  have hone : ∀ {U : UnitSys} (sets : List (List Nat)), UnitSysOk U →
      famOk s.board sets U →
      (∀ u, u < 9 → ((U.uSqs u).map (fun q => c.getD q 0)).Nodup) →
      c.getD sq 0 ∈ sets.getD (U.uOf sq) [] := by
    intro U sets hU hfam hnd
    rw [famOk_mem_iff hfam (hU.2.1 sq hsq) (c.getD sq 0)]
    refine ⟨⟨hv19.1, hv19.2⟩, fun q hq hqv => ?_⟩
    have hq81 := ((hU.1 (U.uOf sq) (hU.2.1 sq hsq) q).1 hq).1
    have hqsq : q ≠ sq := fun h => by rw [h, hopen] at hqv; omega
    have hcq : c.getD q 0 = s.board.getD q 0 := hagree q hq81 (by omega)
    exact nodup_map_pairwise (hnd (U.uOf sq) (hU.2.1 sq hsq)) q hq sq
      (mem_own_unit hU hsq) hqsq (by omega)
  refine mem_options.2 ⟨hopen, ?_, ?_, ?_⟩
  · exact hone s.rows rowSys_ok hw.2.2.1 (fun u hu => (hcnodup u hu).1)
  · exact hone s.cols colSys_ok hw.2.2.2.1 (fun u hu => (hcnodup u hu).2.1)
  · exact hone s.boxes boxSys_ok hw.2.2.2.2 (fun u hu => (hcnodup u hu).2.2)

theorem completion_fill {s : Sudoku} {c : List Nat} {sq v : Nat}
    (hbl : s.board.length = 81) (hcomp : Completion s.board c) (hsq : sq < 81)
    (hval : c.getD sq 0 = v) : Completion (fillState s sq v).board c := by
  refine ⟨hcomp.1, fun i hi hnz => ?_⟩
  rw [show (fillState s sq v).board = s.board.set sq v from rfl] at hnz ⊢
  by_cases his : i = sq
  · subst his
    rw [getD_set_self s.board i v 0 (by omega)]
    exact hval
  · rw [getD_set_ne s.board sq i v 0 (fun h => his h.symm)] at hnz ⊢
    exact hcomp.2 i hi hnz

theorem completion_unfill_back {s : Sudoku} {c : List Nat} {sq v : Nat}
    (hopen : s.board.getD sq 0 = 0)
    (h : Completion (fillState s sq v).board c) : Completion s.board c := by
  refine ⟨h.1, fun i hi hnz => ?_⟩
  have his : i ≠ sq := fun hh => by rw [hh, hopen] at hnz; omega
  have := h.2 i hi (by
    rw [show (fillState s sq v).board = s.board.set sq v from rfl,
      getD_set_ne s.board sq i v 0 (fun hh => his hh.symm)]
    exact hnz)
  rwa [show (fillState s sq v).board = s.board.set sq v from rfl,
    getD_set_ne s.board sq i v 0 (fun hh => his hh.symm)] at this

theorem openCount_zero_iff {s : Sudoku} :
    openCount s = 0 ↔ ∀ i, i < 81 → s.board.getD i 0 ≠ 0 := by
  unfold openCount
  rw [List.length_eq_zero]
  constructor
  · intro h i hi hz
    have := mem_get_opens.2 ⟨hi, hz⟩
    rw [h] at this
    exact absurd this (by simp)
  · intro h
    refine List.eq_nil_iff_forall_not_mem.2 (fun q hq => ?_)
    obtain ⟨h1, h2⟩ := mem_get_opens.1 hq
    exact h q h1 h2

/-! ### Evaluation lemmas for the `solve` value loop -/

theorem solveStep_eval_true {recur : Sudoku → Except String (Bool × Sudoku)}
    {sq v : Nat} {s s1 s2 : Sudoku} {comp : List Nat}
    (hfill : s.fill sq v = .ok (s1, comp)) (hrec : recur s1 = .ok (true, s2)) :
    solveStep recur sq (.ok (false, s)) v = .ok (true, s2) := by
  show (match s.fill sq v with
    | .error e => .error e
    | .ok (s1, _) =>
      match recur s1 with
      | .error e => .error e
      | .ok (true, s2) => .ok (true, s2)
      | .ok (false, s2) =>
        match s2.unfill sq with
        | .error e => .error e
        | .ok s3 => .ok (false, s3)) = Except.ok (true, s2)
  rw [hfill]
  show (match recur s1 with
    | .error e => .error e
    | .ok (true, s2) => .ok (true, s2)
    | .ok (false, s2) =>
      match s2.unfill sq with
      | .error e => .error e
      | .ok s3 => .ok (false, s3)) = Except.ok (true, s2)
  rw [hrec]

theorem solveStep_eval_false {recur : Sudoku → Except String (Bool × Sudoku)}
    {sq v : Nat} {s s1 s2 s3 : Sudoku} {comp : List Nat}
    (hfill : s.fill sq v = .ok (s1, comp)) (hrec : recur s1 = .ok (false, s2))
    (hunf : s2.unfill sq = .ok s3) :
    solveStep recur sq (.ok (false, s)) v = .ok (false, s3) := by
  show (match s.fill sq v with
    | .error e => .error e
    | .ok (s1, _) =>
      match recur s1 with
      | .error e => .error e
      | .ok (true, s2) => .ok (true, s2)
      | .ok (false, s2) =>
        match s2.unfill sq with
        | .error e => .error e
        | .ok s3 => .ok (false, s3)) = Except.ok (false, s3)
  rw [hfill]
  show (match recur s1 with
    | .error e => .error e
    | .ok (true, s2) => .ok (true, s2)
    | .ok (false, s2) =>
      match s2.unfill sq with
      | .error e => .error e
      | .ok s3 => .ok (false, s3)) = Except.ok (false, s3)
  rw [hrec]
  show (match s2.unfill sq with
    | .error e => .error e
    | .ok s3 => .ok (false, s3)) = Except.ok (false, s3)
  rw [hunf]

theorem solveStep_foldl_true {recur : Sudoku → Except String (Bool × Sudoku)}
    {sq : Nat} {s : Sudoku} :
    ∀ vs : List Nat, vs.foldl (solveStep recur sq) (.ok (true, s)) = .ok (true, s)
  | [] => rfl
  | v :: vs => by
    rw [List.foldl_cons]
    exact solveStep_foldl_true vs

/-- Unfolding equation of `solve` at positive fuel. -/
theorem solve_succ (fuel : Nat) (s : Sudoku) :
    solve (fuel + 1) s =
      match s.get_opens_by_dof false with
      | [] => .ok (true, s)
      | sq :: _ =>
        (s.get_sq_options sq).foldl (solveStep (fun t => solve fuel t) sq)
          (.ok (false, s)) := rfl

theorem solveVals_spec {fuel : Nat} {s : Sudoku} {sq : Nat}
    (ih : ∀ t, Wf t → openCount t < fuel →
      (∃ t', solve fuel t = .ok (true, t') ∧ Wf t' ∧ openCount t' = 0 ∧
        cellsAgree t.board t'.board) ∨
      (solve fuel t = .ok (false, t) ∧ ¬ Solvable t))
    (hw : Wf s) (hsq : sq < 81) (hopen : s.board.getD sq 0 = 0)
    (hcnt : openCount s ≤ fuel) :
    ∀ vs : List Nat, (∀ v ∈ vs, v ∈ s.get_sq_options sq) →
      (∃ s', vs.foldl (solveStep (fun t => solve fuel t) sq) (.ok (false, s)) =
          .ok (true, s') ∧ Wf s' ∧ openCount s' = 0 ∧
          cellsAgree s.board s'.board) ∨
      (vs.foldl (solveStep (fun t => solve fuel t) sq) (.ok (false, s)) =
          .ok (false, s) ∧ ∀ v ∈ vs, ¬ Solvable (fillState s sq v))
  | [], _ => Or.inr ⟨rfl, by simp⟩
  | v :: vs, hall => by
    have hv := hall v (List.mem_cons_self _ _)
    obtain ⟨_, hr, hc, hb⟩ := mem_options.1 hv
    have hfill := fill_ok hw hsq hopen hr hc hb
    have hwf1 := fillState_wf hw hsq hopen hr hc hb
    have hv0 : v ≠ 0 := by
      have := (hw.2.2.1 (rowOf sq) (rowSys_ok.2.1 sq hsq)).1.2 v hr
      omega
    have hcnt1 : openCount (fillState s sq v) < fuel := by
      have := openCount_fillState hsq hw.1.1 hopen hv0
      omega
    rw [List.foldl_cons]
    rcases ih (fillState s sq v) hwf1 hcnt1 with
      ⟨t', heq, hwt, hct, hagree⟩ | ⟨heq, hnos⟩
    · left
      rw [solveStep_eval_true hfill heq, solveStep_foldl_true]
      refine ⟨t', rfl, hwt, hct, fun i hi hnz => ?_⟩
      have hisq : i ≠ sq := fun h => by rw [h, hopen] at hnz; exact hnz rfl
      have hfb : (fillState s sq v).board.getD i 0 = s.board.getD i 0 := by
        rw [show (fillState s sq v).board = s.board.set sq v from rfl,
          getD_set_ne s.board sq i v 0 (fun h => hisq h.symm)]
      rw [hagree i hi (by rw [hfb]; exact hnz), hfb]
    · have hunf := fillState_unfill hw hsq hopen hr hc hb
      rw [solveStep_eval_false hfill heq hunf]
      rcases solveVals_spec ih hw hsq hopen hcnt vs
          (fun w hwm => hall w (List.mem_cons_of_mem _ hwm)) with h | ⟨heq2, hns⟩
      · exact Or.inl h
      · refine Or.inr ⟨heq2, fun w hwm => ?_⟩
        rcases List.mem_cons.1 hwm with rfl | hm
        · exact hnos
        · exact hns w hm

/-- Main specification of `solve`: with enough fuel it either returns a
solved well-formed full board extending the input, or returns `False` with
the state unchanged, exactly when no completion exists. -/
theorem solve_spec : ∀ (fuel : Nat) (s : Sudoku), Wf s → openCount s < fuel →
    (∃ s', solve fuel s = .ok (true, s') ∧ Wf s' ∧ openCount s' = 0 ∧
      cellsAgree s.board s'.board) ∨
    (solve fuel s = .ok (false, s) ∧ ¬ Solvable s) := by
  intro fuel
  induction fuel with
  | zero =>
    intro s _ h
    omega
  | succ fuel ih =>
    intro s hw hcnt
    cases hdof : s.get_opens_by_dof false with
    | nil =>
      left
      refine ⟨s, ?_, hw, ?_, fun i _ _ => rfl⟩
      · rw [solve_succ, hdof]
      · unfold openCount
        rw [get_opens_by_dof_nil.1 hdof]
        rfl
    | cons sq rest =>
      have hsqmem : sq ∈ s.get_opens :=
        mem_get_opens_by_dof.1 (by rw [hdof]; exact List.mem_cons_self sq rest)
      obtain ⟨hsq81, hsqopen⟩ := mem_get_opens.1 hsqmem
      have heqn : solve (fuel + 1) s = (s.get_sq_options sq).foldl
          (solveStep (fun t => solve fuel t) sq) (.ok (false, s)) := by
        rw [solve_succ, hdof]
      rcases solveVals_spec ih hw hsq81 hsqopen (by omega)
          (s.get_sq_options sq) (fun v hv => hv) with
        ⟨s', heq, hwt, hct, hagree⟩ | ⟨heq, hnos⟩
      · exact Or.inl ⟨s', heqn.trans heq, hwt, hct, hagree⟩
      · right
        refine ⟨heqn.trans heq, fun hsol => ?_⟩
        obtain ⟨c, hcomp⟩ := hsol
        have hvopt := completion_mem_options hw hcomp hsq81 hsqopen
        exact hnos (c.getD sq 0) hvopt
          ⟨c, completion_fill hw.1.1 hcomp hsq81 rfl⟩

/-! ### Deduction pass specifications -/

theorem cellsAgree_refl (bd : List Nat) : cellsAgree bd bd :=
  fun _ _ _ => rfl

theorem cellsAgree_trans {a b c : List Nat} (h1 : cellsAgree a b)
    (h2 : cellsAgree b c) : cellsAgree a c := by
  intro i hi hnz
  rw [h2 i hi (by rw [h1 i hi hnz]; exact hnz), h1 i hi hnz]

theorem cellsAgree_fillState {t : Sudoku} {i v : Nat}
    (hopen : t.board.getD i 0 = 0) :
    cellsAgree t.board (fillState t i v).board := by
  intro j hj hnz
  have hji : j ≠ i := fun h => by rw [h, hopen] at hnz; exact hnz rfl
  rw [show (fillState t i v).board = t.board.set i v from rfl,
    getD_set_ne t.board i j v 0 (fun h => hji h.symm)]

theorem intersect_go : ∀ (l : List Nat) (n : Nat) (t : Sudoku), Wf t →
    (∀ i ∈ l, i < 81) →
    ∃ m t', l.foldl intersectStep (Except.ok (n, t)) = Except.ok (m, t') ∧ Wf t' ∧
      cellsAgree t.board t'.board ∧ t'.log = t.log ∧ (m = n → t' = t) ∧ n ≤ m
  | [], n, t, hw, _ => ⟨n, t, rfl, hw, cellsAgree_refl _, rfl, fun _ => rfl, le_refl n⟩
  | i :: l, n, t, hw, hlt => by
    rcases hopt : t.get_sq_options i with _ | ⟨v, _ | ⟨w, rest⟩⟩
    · have hstep : intersectStep (Except.ok (n, t)) i = Except.ok (n, t) := by
        show (match t.get_sq_options i with
          | [v] =>
            match t.fill i v with
            | Except.error e => Except.error e
            | Except.ok (t1, _) => Except.ok (n + 1, t1)
          | _ => Except.ok (n, t)) = Except.ok (n, t)
        rw [hopt]
      rw [List.foldl_cons, hstep]
      exact intersect_go l n t hw (fun j hj => hlt j (List.mem_cons_of_mem _ hj))
    · have hvmem : v ∈ t.get_sq_options i := by
        rw [hopt]
        exact List.mem_cons_self _ _
      obtain ⟨hopen, hr, hc, hb⟩ := mem_options.1 hvmem
      have hi81 : i < 81 := hlt i (List.mem_cons_self _ _)
      have hfill := fill_ok hw hi81 hopen hr hc hb
      have hstep : intersectStep (Except.ok (n, t)) i =
          Except.ok (n + 1, fillState t i v) := by
        show (match t.get_sq_options i with
          | [v] =>
            match t.fill i v with
            | Except.error e => Except.error e
            | Except.ok (t1, _) => Except.ok (n + 1, t1)
          | _ => Except.ok (n, t)) = Except.ok (n + 1, fillState t i v)
        rw [hopt]
        show (match t.fill i v with
          | Except.error e => Except.error e
          | Except.ok (t1, _) => Except.ok (n + 1, t1)) = Except.ok (n + 1, fillState t i v)
        rw [hfill]
      rw [List.foldl_cons, hstep]
      obtain ⟨m, t', heq, hw', hagree, hlog, _, hle⟩ :=
        intersect_go l (n + 1) (fillState t i v)
          (fillState_wf hw hi81 hopen hr hc hb)
          (fun j hj => hlt j (List.mem_cons_of_mem _ hj))
      exact ⟨m, t', heq, hw',
        cellsAgree_trans (cellsAgree_fillState hopen) hagree, hlog,
        fun h => by omega, by omega⟩
    · have hstep : intersectStep (Except.ok (n, t)) i = Except.ok (n, t) := by
        show (match t.get_sq_options i with
          | [v] =>
            match t.fill i v with
            | Except.error e => Except.error e
            | Except.ok (t1, _) => Except.ok (n + 1, t1)
          | _ => Except.ok (n, t)) = Except.ok (n, t)
        rw [hopt]
      rw [List.foldl_cons, hstep]
      exact intersect_go l n t hw (fun j hj => hlt j (List.mem_cons_of_mem _ hj))

theorem intersect_ok {s : Sudoku} (hw : Wf s) :
    ∃ n s1, s.intersect = Except.ok (n, s1) ∧ Wf s1 ∧ cellsAgree s.board s1.board ∧
      s1.log = s.log ∧ (n = 0 → s1 = s) := by
  obtain ⟨m, t', heq, hw', hagree, hlog, hback, _⟩ :=
    intersect_go (List.range 81) 0 s hw (fun i hi => List.mem_range.1 hi)
  exact ⟨m, t', heq, hw', hagree, hlog, hback⟩

theorem subOpts_subset {t : Sudoku} {sq1 : Nat} {squares : List Nat} :
    ∀ x ∈ subOpts t squares sq1, x ∈ t.get_sq_options sq1 := by
  have hgo : ∀ (l : List Nat) (init : List Nat) (x : Nat),
      x ∈ l.foldl
        (fun opt1 sq2 =>
          if t.board.getD sq2 0 ≠ 0 ∨ sq2 = sq1 then opt1
          else opt1.filter (fun v => v ∉ t.get_sq_options sq2)) init →
      x ∈ init := by
    intro l
    induction l with
    | nil => intro init x hx; exact hx
    | cons sq2 l ihl =>
      intro init x hx
      rw [List.foldl_cons] at hx
      have := ihl _ x hx
      by_cases hc : t.board.getD sq2 0 ≠ 0 ∨ sq2 = sq1
      · rwa [if_pos hc] at this
      · rw [if_neg hc] at this
        exact (List.mem_filter.1 this).1
  intro x hx
  exact hgo squares _ x hx

theorem sub_factor_go (squares : List Nat) :
    ∀ (l : List Nat) (n : Nat) (t : Sudoku), Wf t → (∀ i ∈ l, i < 81) →
    ∃ m t', l.foldl (subFactorStep squares) (Except.ok (n, t)) = Except.ok (m, t') ∧
      Wf t' ∧ cellsAgree t.board t'.board ∧ t'.log = t.log ∧
      (m = n → t' = t) ∧ n ≤ m
  | [], n, t, hw, _ => ⟨n, t, rfl, hw, cellsAgree_refl _, rfl, fun _ => rfl, le_refl n⟩
  | sq1 :: l, n, t, hw, hlt => by
    by_cases hocc : t.board.getD sq1 0 ≠ 0
    · have hstep : subFactorStep squares (Except.ok (n, t)) sq1 = Except.ok (n, t) := by
        show (if t.board.getD sq1 0 ≠ 0 then Except.ok (n, t)
          else
            match subOpts t squares sq1 with
            | [v] =>
              match t.fill sq1 v with
              | Except.error e => Except.error e
              | Except.ok (t1, _) => Except.ok (n + 1, t1)
            | _ => Except.ok (n, t)) = Except.ok (n, t)
        rw [if_pos hocc]
      rw [List.foldl_cons, hstep]
      exact sub_factor_go squares l n t hw
        (fun j hj => hlt j (List.mem_cons_of_mem _ hj))
    · rcases hopt : subOpts t squares sq1 with _ | ⟨v, _ | ⟨w, rest⟩⟩
      · have hstep : subFactorStep squares (Except.ok (n, t)) sq1 = Except.ok (n, t) := by
          show (if t.board.getD sq1 0 ≠ 0 then Except.ok (n, t)
            else
              match subOpts t squares sq1 with
              | [v] =>
                match t.fill sq1 v with
                | Except.error e => Except.error e
                | Except.ok (t1, _) => Except.ok (n + 1, t1)
              | _ => Except.ok (n, t)) = Except.ok (n, t)
          rw [if_neg hocc, hopt]
        rw [List.foldl_cons, hstep]
        exact sub_factor_go squares l n t hw
          (fun j hj => hlt j (List.mem_cons_of_mem _ hj))
      · have hvmem : v ∈ t.get_sq_options sq1 :=
          subOpts_subset v (by rw [hopt]; exact List.mem_cons_self _ _)
        obtain ⟨hopen, hr, hc, hb⟩ := mem_options.1 hvmem
        have hi81 : sq1 < 81 := hlt sq1 (List.mem_cons_self _ _)
        have hfill := fill_ok hw hi81 hopen hr hc hb
        have hstep : subFactorStep squares (Except.ok (n, t)) sq1 =
            Except.ok (n + 1, fillState t sq1 v) := by
          show (if t.board.getD sq1 0 ≠ 0 then Except.ok (n, t)
            else
              match subOpts t squares sq1 with
              | [v] =>
                match t.fill sq1 v with
                | Except.error e => Except.error e
                | Except.ok (t1, _) => Except.ok (n + 1, t1)
              | _ => Except.ok (n, t)) = Except.ok (n + 1, fillState t sq1 v)
          rw [if_neg hocc, hopt]
          show (match t.fill sq1 v with
            | Except.error e => Except.error e
            | Except.ok (t1, _) => Except.ok (n + 1, t1)) = Except.ok (n + 1, fillState t sq1 v)
          rw [hfill]
        rw [List.foldl_cons, hstep]
        obtain ⟨m, t', heq, hw', hagree, hlog, _, hle⟩ :=
          sub_factor_go squares l (n + 1) (fillState t sq1 v)
            (fillState_wf hw hi81 hopen hr hc hb)
            (fun j hj => hlt j (List.mem_cons_of_mem _ hj))
        exact ⟨m, t', heq, hw',
          cellsAgree_trans (cellsAgree_fillState hopen) hagree, hlog,
          fun h => by omega, by omega⟩
      · have hstep : subFactorStep squares (Except.ok (n, t)) sq1 = Except.ok (n, t) := by
          show (if t.board.getD sq1 0 ≠ 0 then Except.ok (n, t)
            else
              match subOpts t squares sq1 with
              | [v] =>
                match t.fill sq1 v with
                | Except.error e => Except.error e
                | Except.ok (t1, _) => Except.ok (n + 1, t1)
              | _ => Except.ok (n, t)) = Except.ok (n, t)
          rw [if_neg hocc, hopt]
        rw [List.foldl_cons, hstep]
        exact sub_factor_go squares l n t hw
          (fun j hj => hlt j (List.mem_cons_of_mem _ hj))

theorem sub_factor_ok {s : Sudoku} {squares : List Nat} (hw : Wf s)
    (hlt : ∀ i ∈ squares, i < 81) :
    ∃ n s1, sub_factor s squares = Except.ok (n, s1) ∧ Wf s1 ∧
      cellsAgree s.board s1.board ∧ s1.log = s.log ∧ (n = 0 → s1 = s) := by
  obtain ⟨m, t', heq, hw', hagree, hlog, hback, _⟩ :=
    sub_factor_go squares squares 0 s hw hlt
  exact ⟨m, t', heq, hw', hagree, hlog, hback⟩

/-- Every square index listed by the 27 units is in range. -/
theorem units_lt : ∀ sqs ∈ (List.range 9).map get_sqs_in_box ++
    ((List.range 9).map get_sqs_in_row ++ (List.range 9).map get_sqs_in_col),
    ∀ q ∈ sqs, q < 81 := by
  intro sqs hsqs q hq
  rcases List.mem_append.1 hsqs with h | h
  · obtain ⟨u, hu, rfl⟩ := List.mem_map.1 h
    exact ((boxSys_ok.1 u (List.mem_range.1 hu) q).1 hq).1
  · rcases List.mem_append.1 h with h | h
    · obtain ⟨u, hu, rfl⟩ := List.mem_map.1 h
      exact ((rowSys_ok.1 u (List.mem_range.1 hu) q).1 hq).1
    · obtain ⟨u, hu, rfl⟩ := List.mem_map.1 h
      exact ((colSys_ok.1 u (List.mem_range.1 hu) q).1 hq).1

theorem subtract_go : ∀ (L : List (List Nat)) (n : Nat) (t : Sudoku), Wf t →
    (∀ sqs ∈ L, ∀ q ∈ sqs, q < 81) →
    ∃ m t', L.foldl subtractStep (Except.ok (n, t)) = Except.ok (m, t') ∧ Wf t' ∧
      cellsAgree t.board t'.board ∧ t'.log = t.log ∧ (m = n → t' = t) ∧ n ≤ m
  | [], n, t, hw, _ => ⟨n, t, rfl, hw, cellsAgree_refl _, rfl, fun _ => rfl, le_refl n⟩
  | sqs :: L, n, t, hw, hlt => by
    obtain ⟨k, t1, heq1, hw1, hagree1, hlog1, hback1⟩ :=
      sub_factor_ok hw (hlt sqs (List.mem_cons_self _ _))
    have hstep : subtractStep (Except.ok (n, t)) sqs = Except.ok (n + k, t1) := by
      show (match sub_factor t sqs with
        | Except.error e => Except.error e
        | Except.ok (m, t1) => Except.ok (n + m, t1)) = Except.ok (n + k, t1)
      rw [heq1]
    rw [List.foldl_cons, hstep]
    obtain ⟨m, t', heq, hw', hagree, hlog, hback, hle⟩ :=
      subtract_go L (n + k) t1 hw1
        (fun ss hss => hlt ss (List.mem_cons_of_mem _ hss))
    refine ⟨m, t', heq, hw', cellsAgree_trans hagree1 hagree,
      hlog.trans hlog1, fun h => ?_, by omega⟩
    have hk : k = 0 := by omega
    have ht1 : t1 = t := hback1 hk
    rw [hback (by omega), ht1]

theorem subtract_ok {s : Sudoku} (hw : Wf s) :
    ∃ n s1, s.subtract = .ok (n, s1) ∧ Wf s1 ∧ cellsAgree s.board s1.board ∧
      s1.log = s.log ∧ (n = 0 → s1 = s) := by
  obtain ⟨m, t', heq, hw', hagree, hlog, hback, _⟩ :=
    subtract_go ((List.range 9).map get_sqs_in_box ++
      ((List.range 9).map get_sqs_in_row ++ (List.range 9).map get_sqs_in_col))
      0 s hw units_lt
  refine ⟨m, t', ?_, hw', hagree, hlog, hback⟩
  show ((List.range 9).map get_sqs_in_box ++ (List.range 9).map get_sqs_in_row ++
    (List.range 9).map get_sqs_in_col).foldl subtractStep (.ok (0, s)) = _
  rw [List.append_assoc]
  exact heq

/-! ### The deduction fixed-point loops and `simplify` -/

theorem str_append_empty (a : String) : a ++ "" = a := by
  cases a with
  | mk data =>
    show String.mk (data ++ []) = String.mk data
    rw [List.append_nil]

theorem intersectLoop_spec : ∀ (f t0 : Nat) (s : Sudoku) (tt : Nat)
    (s1 : Sudoku), Wf s → intersectLoop f t0 s = .ok (tt, s1) →
    Wf s1 ∧ cellsAgree s.board s1.board ∧ s1.log = s.log
  | 0, _, _, _, _, _, h => Except.noConfusion h
  | f + 1, t0, s, tt, s1, hw, h => by
    obtain ⟨n, sa, heq, hwa, hagree, hlog, hback⟩ := intersect_ok hw
    have heq2 : intersectLoop (f + 1) t0 s =
        (if n = 0 then Except.ok (t0, sa) else intersectLoop f (t0 + n) sa) := by
      show (match s.intersect with
        | .error e => Except.error e
        | .ok (n, s') =>
          if n = 0 then Except.ok (t0, s') else intersectLoop f (t0 + n) s') = _
      rw [heq]
    rw [heq2] at h
    by_cases hn : n = 0
    · rw [if_pos hn] at h
      have h2 := Except.ok.inj h
      have hs1 : s1 = sa := congrArg Prod.snd h2 |>.symm
      subst hs1
      exact ⟨hwa, hagree, hlog⟩
    · rw [if_neg hn] at h
      have hrec := intersectLoop_spec f (t0 + n) sa tt s1 hwa h
      exact ⟨hrec.1, cellsAgree_trans hagree hrec.2.1, hrec.2.2.trans hlog⟩

theorem subtractLoop_spec : ∀ (f t0 : Nat) (s : Sudoku) (tt : Nat)
    (s1 : Sudoku), Wf s → subtractLoop f t0 s = .ok (tt, s1) →
    Wf s1 ∧ cellsAgree s.board s1.board ∧ s1.log = s.log
  | 0, _, _, _, _, _, h => Except.noConfusion h
  | f + 1, t0, s, tt, s1, hw, h => by
    obtain ⟨n, sa, heq, hwa, hagree, hlog, hback⟩ := subtract_ok hw
    have heq2 : subtractLoop (f + 1) t0 s =
        (if n = 0 then Except.ok (t0, sa) else subtractLoop f (t0 + n) sa) := by
      show (match s.subtract with
        | .error e => Except.error e
        | .ok (n, s') =>
          if n = 0 then Except.ok (t0, s') else subtractLoop f (t0 + n) s') = _
      rw [heq]
    rw [heq2] at h
    by_cases hn : n = 0
    · rw [if_pos hn] at h
      have h2 := Except.ok.inj h
      have hs1 : s1 = sa := congrArg Prod.snd h2 |>.symm
      subst hs1
      exact ⟨hwa, hagree, hlog⟩
    · rw [if_neg hn] at h
      have hrec := subtractLoop_spec f (t0 + n) sa tt s1 hwa h
      exact ⟨hrec.1, cellsAgree_trans hagree hrec.2.1, hrec.2.2.trans hlog⟩

/-- Changing only the log preserves the invariant. -/
theorem wf_set_log {s : Sudoku} (hw : Wf s) (l : String) :
    Wf { s with log := l } := hw

theorem simplify_spec {s s1 : Sudoku} (hw : Wf s) (h : simplify s = .ok s1) :
    Wf s1 ∧ cellsAgree s.board s1.board ∧
    ∃ ti ts, s1.log = s.log ++ ti ++ ts ∧
      (ti = "" ∨ ∃ n, ti = "i" ++ pad2 n ++ " ") ∧
      (ts = "" ∨ ∃ n, ts = "s" ++ pad2 n ++ " ") := by
  rcases hil : intersectLoop 100 0 s with e | ⟨t, sa⟩
  · have heq0 : simplify s = Except.error e := by
      show (match intersectLoop 100 0 s with
        | .error e => Except.error e
        | .ok (t, s1) =>
          let s2 := if 0 < t then { s1 with log := s1.log ++ "i" ++ pad2 t ++ " " }
            else s1
          match subtractLoop 100 0 s2 with
          | .error e => Except.error e
          | .ok (t2, s3) =>
            Except.ok (if 0 < t2 then { s3 with log := s3.log ++ "s" ++ pad2 t2 ++ " " }
              else s3)) = Except.error e
      rw [hil]
    rw [heq0] at h
    exact Except.noConfusion h
  · obtain ⟨hwa, hagreea, hloga⟩ := intersectLoop_spec 100 0 s t sa hw hil
    set sb : Sudoku := if 0 < t then
      { sa with log := sa.log ++ "i" ++ pad2 t ++ " " } else sa with hsb
    have heq1 : simplify s =
        (match subtractLoop 100 0 sb with
        | .error e => Except.error e
        | .ok (t2, s3) =>
          Except.ok (if 0 < t2 then { s3 with log := s3.log ++ "s" ++ pad2 t2 ++ " " }
            else s3)) := by
      show (match intersectLoop 100 0 s with
        | .error e => Except.error e
        | .ok (t, s1) =>
          let s2 := if 0 < t then { s1 with log := s1.log ++ "i" ++ pad2 t ++ " " }
            else s1
          match subtractLoop 100 0 s2 with
          | .error e => Except.error e
          | .ok (t2, s3) =>
            Except.ok (if 0 < t2 then { s3 with log := s3.log ++ "s" ++ pad2 t2 ++ " " }
              else s3)) = _
      rw [hil]
    have hwb : Wf sb := by
      rw [hsb]
      by_cases ht : 0 < t
      · rw [if_pos ht]
        exact wf_set_log hwa _
      · rw [if_neg ht]
        exact hwa
    have hagreeb : cellsAgree s.board sb.board := by
      rw [hsb]
      by_cases ht : 0 < t
      · rw [if_pos ht]
        exact hagreea
      · rw [if_neg ht]
        exact hagreea
    have hlogb : ∃ ti, sb.log = s.log ++ ti ∧
        (ti = "" ∨ ∃ n, ti = "i" ++ pad2 n ++ " ") := by
      rw [hsb]
      by_cases ht : 0 < t
      · rw [if_pos ht]
        refine ⟨"i" ++ pad2 t ++ " ", ?_, Or.inr ⟨t, rfl⟩⟩
        show sa.log ++ "i" ++ pad2 t ++ " " = s.log ++ ("i" ++ pad2 t ++ " ")
        rw [hloga]
        simp only [String.append_assoc]
      · rw [if_neg ht]
        refine ⟨"", ?_, Or.inl rfl⟩
        rw [str_append_empty, hloga]
    rcases hsl : subtractLoop 100 0 sb with e | ⟨t2, sc⟩
    · rw [heq1, hsl] at h
      exact Except.noConfusion h
    · obtain ⟨hwc, hagreec, hlogc⟩ := subtractLoop_spec 100 0 sb t2 sc hwb hsl
      have heq2 : simplify s = Except.ok (if 0 < t2 then
          { sc with log := sc.log ++ "s" ++ pad2 t2 ++ " " } else sc) := by
        rw [heq1]
        show (match subtractLoop 100 0 sb with
          | .error e => Except.error e
          | .ok (t2, s3) =>
            Except.ok (if 0 < t2 then
              { s3 with log := s3.log ++ "s" ++ pad2 t2 ++ " " } else s3)) = _
        rw [hsl]
      rw [heq2] at h
      have hs1 := Except.ok.inj h
      obtain ⟨ti, hti, htiok⟩ := hlogb
      by_cases ht2 : 0 < t2
      · rw [if_pos ht2] at hs1
        refine ⟨?_, ?_, ti, "s" ++ pad2 t2 ++ " ", ?_, htiok, Or.inr ⟨t2, rfl⟩⟩
        · rw [← hs1]
          exact wf_set_log hwc _
        · rw [← hs1]
          exact cellsAgree_trans hagreeb hagreec
        · rw [← hs1]
          show sc.log ++ "s" ++ pad2 t2 ++ " " = s.log ++ ti ++ ("s" ++ pad2 t2 ++ " ")
          rw [hlogc, hti]
          simp only [String.append_assoc]
      · rw [if_neg ht2] at hs1
        refine ⟨?_, ?_, ti, "", ?_, htiok, Or.inl rfl⟩
        · rw [← hs1]
          exact hwc
        · rw [← hs1]
          exact cellsAgree_trans hagreeb hagreec
        · rw [← hs1, str_append_empty, hlogc, hti]

/-! ### State-component ("parts") helpers for the in-place rollback proof -/

theorem options_parts_eq {x y : Sudoku} (hb : x.board = y.board)
    (hr : x.rows = y.rows) (hc : x.cols = y.cols) (hbx : x.boxes = y.boxes)
    (sq : Nat) : x.get_sq_options sq = y.get_sq_options sq := by
  unfold Sudoku.get_sq_options
  rw [hb, hr, hc, hbx]

theorem eq_set_log_of_parts {x y : Sudoku} (hb : x.board = y.board)
    (hr : x.rows = y.rows) (hc : x.cols = y.cols) (hbx : x.boxes = y.boxes) :
    x = { y with log := x.log } := by
  cases x with
  | mk xb xr xc xx xl =>
    cases y with
    | mk yb yr yc yx yl =>
      simp only at hb hr hc hbx
      subst hb
      subst hr
      subst hc
      subst hbx
      rfl

theorem wf_of_parts {x y : Sudoku} (hw : Wf y) (hb : x.board = y.board)
    (hr : x.rows = y.rows) (hc : x.cols = y.cols) (hbx : x.boxes = y.boxes) :
    Wf x := by
  rw [eq_set_log_of_parts hb hr hc hbx]
  exact wf_set_log hw _

theorem unfill_of_parts {x y s3 : Sudoku} (hwx : Wf x) (hwy : Wf y) {sq : Nat}
    (hsq : sq < 81) (hb : x.board = y.board) (hr : x.rows = y.rows)
    (hc : x.cols = y.cols) (hbx : x.boxes = y.boxes)
    (hy : y.unfill sq = .ok s3) :
    ∃ s4, x.unfill sq = .ok s4 ∧ s4.board = s3.board ∧ s4.rows = s3.rows ∧
      s4.cols = s3.cols ∧ s4.boxes = s3.boxes ∧ s4.log = x.log := by
  by_cases hz : y.board.getD sq 0 = 0
  · rw [unfill_noop hsq hz] at hy
    have hs3 : s3 = y := (Except.ok.inj hy).symm
    subst hs3
    refine ⟨x, unfill_noop hsq (by rw [hb]; exact hz), hb, hr, hc, hbx, rfl⟩
  · rw [unfill_filled_eq hwy hsq hz] at hy
    have hs3 : s3 = unfillState y sq := (Except.ok.inj hy).symm
    subst hs3
    have hxz : x.board.getD sq 0 ≠ 0 := by rw [hb]; exact hz
    refine ⟨unfillState x sq, unfill_filled_eq hwx hsq hxz, ?_, ?_, ?_, ?_, rfl⟩
    · show x.board.set sq 0 = y.board.set sq 0
      rw [hb]
    · show x.rows.set (rowOf sq) (setInsert (x.board.getD sq 0) _) = _
      rw [hb, hr]
      rfl
    · show x.cols.set (colOf sq) (setInsert (x.board.getD sq 0) _) = _
      rw [hb, hc]
      rfl
    · show x.boxes.set (boxOf sq) (setInsert (x.board.getD sq 0) _) = _
      rw [hb, hbx]
      rfl

theorem unwindFold_spec : ∀ (l : List Nat) (t : Sudoku), Wf t → l.Nodup →
    (∀ q ∈ l, q < 81 ∧ t.board.getD q 0 ≠ 0) →
    ∃ u, unwindFold t l = .ok u ∧ Wf u ∧ u.log = t.log ∧
      (∀ i, u.board.getD i 0 = if i ∈ l then 0 else t.board.getD i 0)
  | [], t, hw, _, _ => ⟨t, rfl, hw, rfl, fun i => by simp⟩
  | q :: l, t, hw, hnd, hmem => by
    obtain ⟨hq81, hqnz⟩ := hmem q (List.mem_cons_self _ _)
    rw [List.nodup_cons] at hnd
    have ht1 := unfill_filled_eq hw hq81 hqnz
    have hw1 := unfillState_wf hw hq81 hqnz
    have hstep : unwindFold t (q :: l) = unwindFold (unfillState t q) l := by
      show (match t.unfill q with
        | .error e => Except.error e
        | .ok s1 => unwindFold s1 l) = _
      rw [ht1]
    have hb1 : ∀ i, (unfillState t q).board.getD i 0 =
        if i = q then 0 else t.board.getD i 0 := by
      intro i
      by_cases hiq : i = q
      · subst hiq
        rw [if_pos rfl, show (unfillState t i).board = t.board.set i 0 from rfl,
          getD_set_self t.board i 0 0 (by rw [hw.1.1]; omega)]
      · rw [if_neg hiq, show (unfillState t q).board = t.board.set q 0 from rfl,
          getD_set_ne t.board q i 0 0 (fun h => hiq h.symm)]
    obtain ⟨u, heq, hwu, hlogu, hbu⟩ := unwindFold_spec l (unfillState t q) hw1
      hnd.2 (fun q' hq' => by
        obtain ⟨h1, h2⟩ := hmem q' (List.mem_cons_of_mem _ hq')
        refine ⟨h1, ?_⟩
        rw [hb1 q', if_neg (fun (h : q' = q) => hnd.1 (h ▸ hq'))]
        exact h2)
    refine ⟨u, by rw [hstep]; exact heq, hwu, hlogu, fun i => ?_⟩
    rw [hbu i, hb1 i]
    by_cases hiq : i = q
    · subst hiq
      rw [if_pos (List.mem_cons_self _ _)]
      by_cases hil : i ∈ l
      · rw [if_pos hil]
      · rw [if_neg hil, if_pos rfl]
    · by_cases hil : i ∈ l
      · rw [if_pos hil, if_pos (List.mem_cons_of_mem _ hil)]
      · rw [if_neg hil, if_neg hiq,
          if_neg (fun h => by
            rcases List.mem_cons.1 h with h | h
            · exact hiq h
            · exact hil h)]

/-! ### Evaluation lemmas for the `hsolve` guess loop -/

theorem hsolveStep_eval_err {recur : Sudoku → Except String (Bool × Sudoku)}
    {savelog : String} {sq v : Nat} {s s1 : Sudoku} {comp : List Nat} {e : String}
    (hfill : s.fill sq v = .ok (s1, comp))
    (hrec : recur { s1 with log := savelog ++ "_r_ " } = .error e) :
    hsolveStep recur savelog sq (.ok (false, s)) v = .error e := by
  show (match s.fill sq v with
    | .error e => Except.error e
    | .ok (s1, _) =>
      match recur { s1 with log := savelog ++ "_r_ " } with
      | .error e => Except.error e
      | .ok (true, s2) => Except.ok (true, s2)
      | .ok (false, s2) =>
        match s2.unfill sq with
        | .error e => Except.error e
        | .ok s3 => Except.ok (false, s3)) = Except.error e
  rw [hfill]
  show (match recur { s1 with log := savelog ++ "_r_ " } with
    | .error e => Except.error e
    | .ok (true, s2) => Except.ok (true, s2)
    | .ok (false, s2) =>
      match s2.unfill sq with
      | .error e => Except.error e
      | .ok s3 => Except.ok (false, s3)) = Except.error e
  rw [hrec]

theorem hsolveStep_eval_true {recur : Sudoku → Except String (Bool × Sudoku)}
    {savelog : String} {sq v : Nat} {s s1 s2 : Sudoku} {comp : List Nat}
    (hfill : s.fill sq v = .ok (s1, comp))
    (hrec : recur { s1 with log := savelog ++ "_r_ " } = .ok (true, s2)) :
    hsolveStep recur savelog sq (.ok (false, s)) v = .ok (true, s2) := by
  show (match s.fill sq v with
    | .error e => Except.error e
    | .ok (s1, _) =>
      match recur { s1 with log := savelog ++ "_r_ " } with
      | .error e => Except.error e
      | .ok (true, s2) => Except.ok (true, s2)
      | .ok (false, s2) =>
        match s2.unfill sq with
        | .error e => Except.error e
        | .ok s3 => Except.ok (false, s3)) = Except.ok (true, s2)
  rw [hfill]
  show (match recur { s1 with log := savelog ++ "_r_ " } with
    | .error e => Except.error e
    | .ok (true, s2) => Except.ok (true, s2)
    | .ok (false, s2) =>
      match s2.unfill sq with
      | .error e => Except.error e
      | .ok s3 => Except.ok (false, s3)) = Except.ok (true, s2)
  rw [hrec]

theorem hsolveStep_eval_false {recur : Sudoku → Except String (Bool × Sudoku)}
    {savelog : String} {sq v : Nat} {s s1 s2 s3 : Sudoku} {comp : List Nat}
    (hfill : s.fill sq v = .ok (s1, comp))
    (hrec : recur { s1 with log := savelog ++ "_r_ " } = .ok (false, s2))
    (hunf : s2.unfill sq = .ok s3) :
    hsolveStep recur savelog sq (.ok (false, s)) v = .ok (false, s3) := by
  show (match s.fill sq v with
    | .error e => Except.error e
    | .ok (s1, _) =>
      match recur { s1 with log := savelog ++ "_r_ " } with
      | .error e => Except.error e
      | .ok (true, s2) => Except.ok (true, s2)
      | .ok (false, s2) =>
        match s2.unfill sq with
        | .error e => Except.error e
        | .ok s3 => Except.ok (false, s3)) = Except.ok (false, s3)
  rw [hfill]
  show (match recur { s1 with log := savelog ++ "_r_ " } with
    | .error e => Except.error e
    | .ok (true, s2) => Except.ok (true, s2)
    | .ok (false, s2) =>
      match s2.unfill sq with
      | .error e => Except.error e
      | .ok s3 => Except.ok (false, s3)) = Except.ok (false, s3)
  rw [hrec]
  show (match s2.unfill sq with
    | .error e => Except.error e
    | .ok s3 => Except.ok (false, s3)) = Except.ok (false, s3)
  rw [hunf]

theorem hsolveStep_foldl_err {recur : Sudoku → Except String (Bool × Sudoku)}
    {savelog : String} {sq : Nat} {e : String} :
    ∀ vs : List Nat,
      vs.foldl (hsolveStep recur savelog sq) (.error e) = .error e
  | [] => rfl
  | v :: vs => by
    rw [List.foldl_cons]
    exact hsolveStep_foldl_err vs

theorem hsolveStep_foldl_true {recur : Sudoku → Except String (Bool × Sudoku)}
    {savelog : String} {sq : Nat} {s : Sudoku} :
    ∀ vs : List Nat,
      vs.foldl (hsolveStep recur savelog sq) (.ok (true, s)) = .ok (true, s)
  | [] => rfl
  | v :: vs => by
    rw [List.foldl_cons]
    exact hsolveStep_foldl_true vs

/-- Unfolding equation of `hsolve` at positive fuel. -/
theorem hsolve_succ (fuel : Nat) (s : Sudoku) :
    hsolve (fuel + 1) s =
      (if s.get_opens.isEmpty then .ok (true, s)
      else
        match simplify s with
        | .error e => .error e
        | .ok s1 =>
          match s1.get_opens_by_dof true with
          | [] => .ok (true, s1)
          | sq :: _ =>
            match (s1.get_sq_options sq).foldl
                (hsolveStep (fun t => hsolve fuel t) s1.log sq)
                (.ok (false, s1)) with
            | .error e => .error e
            | .ok (true, s2) => .ok (true, s2)
            | .ok (false, s2) =>
              match unwindFold { s2 with log := s1.log }
                  (s.get_opens.filter
                    (fun q => ({ s2 with log := s1.log } : Sudoku).board.getD q 0 ≠ 0)) with
              | .error e => .error e
              | .ok s4 => .ok (false, s4)) := rfl

theorem hsolveVals_false {fuel : Nat}
    (ih : ∀ s s', Wf s → hsolve fuel s = .ok (false, s') →
      s'.board = s.board ∧ s'.rows = s.rows ∧ s'.cols = s.cols ∧
      s'.boxes = s.boxes ∧ ∃ sd, simplify s = .ok sd ∧ s'.log = sd.log)
    {s1 : Sudoku} {sq : Nat} (hsq : sq < 81) (savelog : String) :
    ∀ (vs : List Nat) (t s2 : Sudoku), Wf t →
      t.board = s1.board → t.rows = s1.rows → t.cols = s1.cols →
      t.boxes = s1.boxes →
      (∀ v ∈ vs, v ∈ s1.get_sq_options sq) →
      vs.foldl (hsolveStep (fun x => hsolve fuel x) savelog sq)
        (.ok (false, t)) = .ok (false, s2) →
      s2.board = s1.board ∧ s2.rows = s1.rows ∧ s2.cols = s1.cols ∧
        s2.boxes = s1.boxes
  | [], t, s2, hwt, hb, hr, hc, hx, _, h => by
    obtain rfl : t = s2 := congrArg Prod.snd (Except.ok.inj h)
    exact ⟨hb, hr, hc, hx⟩
  | v :: vs, t, s2, hwt, hb, hr, hc, hx, hall, h => by
    have hvopt : v ∈ t.get_sq_options sq := by
      rw [options_parts_eq hb hr hc hx]
      exact hall v (List.mem_cons_self _ _)
    obtain ⟨hopen, hrm, hcm, hbm⟩ := mem_options.1 hvopt
    have hfill := fill_ok hwt hsq hopen hrm hcm hbm
    have hwy := fillState_wf hwt hsq hopen hrm hcm hbm
    have hws1' : Wf { fillState t sq v with log := savelog ++ "_r_ " } :=
      wf_set_log hwy _
    rw [List.foldl_cons] at h
    rcases hr2 : hsolve fuel { fillState t sq v with log := savelog ++ "_r_ " }
      with e | ⟨b, s2'⟩
    · rw [hsolveStep_eval_err hfill hr2, hsolveStep_foldl_err] at h
      exact Except.noConfusion h
    · cases b with
      | true =>
        rw [hsolveStep_eval_true hfill hr2, hsolveStep_foldl_true] at h
        exact absurd (congrArg Prod.fst (Except.ok.inj h)) (by simp)
      | false =>
        obtain ⟨hib, hirr, hic, hix, _⟩ := ih _ s2' hws1' hr2
        have hwy2 : Wf s2' := wf_of_parts hws1' hib hirr hic hix
        have hunfy : (fillState t sq v).unfill sq = .ok t :=
          fillState_unfill hwt hsq hopen hrm hcm hbm
        obtain ⟨s4, hunf4, h4b, h4r, h4c, h4x, _⟩ :=
          unfill_of_parts hwy2 hwy hsq (hib.trans rfl) (hirr.trans rfl)
            (hic.trans rfl) (hix.trans rfl) hunfy
        rw [hsolveStep_eval_false hfill hr2 hunf4] at h
        exact hsolveVals_false ih hsq savelog vs s4 s2
          (wf_of_parts hwt h4b h4r h4c h4x)
          (h4b.trans hb) (h4r.trans hr) (h4c.trans hc) (h4x.trans hx) 
          (fun w hwm => hall w (List.mem_cons_of_mem _ hwm)) h

/-- Master rollback lemma: whenever `hsolve` returns `False`, the board and
all 27 candidate sets are restored to their entry values, and the log is
restored to its value just after this call's own deduction passes. -/
theorem hsolve_false_spec : ∀ (fuel : Nat) (s s' : Sudoku), Wf s →
    hsolve fuel s = .ok (false, s') →
    s'.board = s.board ∧ s'.rows = s.rows ∧ s'.cols = s.cols ∧
    s'.boxes = s.boxes ∧ ∃ sd, simplify s = .ok sd ∧ s'.log = sd.log := by
  intro fuel
  induction fuel with
  | zero =>
    intro s s' _ h
    exact Except.noConfusion h
  | succ fuel ih =>
    intro s s' hw h
    by_cases hempty : s.get_opens.isEmpty
    · rw [show hsolve (fuel + 1) s = .ok (true, s) by
        rw [hsolve_succ, if_pos hempty]] at h
      exact absurd (congrArg Prod.fst (Except.ok.inj h)) (by simp)
    · rcases hsim : simplify s with e | s1
      · rw [show hsolve (fuel + 1) s = .error e by
          rw [hsolve_succ, if_neg hempty, hsim]] at h
        exact Except.noConfusion h
      · obtain ⟨hw1, hagree1, hlogex⟩ := simplify_spec hw hsim
        have heq2 : hsolve (fuel + 1) s =
            (match s1.get_opens_by_dof true with
            | [] => Except.ok (true, s1)
            | sq :: _ =>
              match (s1.get_sq_options sq).foldl
                  (hsolveStep (fun t => hsolve fuel t) s1.log sq)
                  (.ok (false, s1)) with
              | .error e => Except.error e
              | .ok (true, s2) => Except.ok (true, s2)
              | .ok (false, s2) =>
                match unwindFold { s2 with log := s1.log }
                    (s.get_opens.filter
                      (fun q =>
                        ({ s2 with log := s1.log } : Sudoku).board.getD q 0 ≠ 0)) with
                | .error e => Except.error e
                | .ok s4 => Except.ok (false, s4)) := by
          rw [hsolve_succ, if_neg hempty, hsim]
        rcases hdof : s1.get_opens_by_dof true with _ | ⟨sq, rest⟩
        · rw [show hsolve (fuel + 1) s = .ok (true, s1) by
            rw [heq2, hdof]] at h
          exact absurd (congrArg Prod.fst (Except.ok.inj h)) (by simp)
        · have hsqmem : sq ∈ s1.get_opens :=
            mem_get_opens_by_dof.1
              (by rw [hdof]; exact List.mem_cons_self sq rest)
          obtain ⟨hsq81, hsqopen⟩ := mem_get_opens.1 hsqmem
          have heq3 : hsolve (fuel + 1) s =
              (match (s1.get_sq_options sq).foldl
                  (hsolveStep (fun t => hsolve fuel t) s1.log sq)
                  (.ok (false, s1)) with
              | .error e => Except.error e
              | .ok (true, s2) => Except.ok (true, s2)
              | .ok (false, s2) =>
                match unwindFold { s2 with log := s1.log }
                    (s.get_opens.filter
                      (fun q =>
                        ({ s2 with log := s1.log } : Sudoku).board.getD q 0 ≠ 0)) with
                | .error e => Except.error e
                | .ok s4 => Except.ok (false, s4)) := by
            rw [heq2, hdof]
          rcases hfold : (s1.get_sq_options sq).foldl
              (hsolveStep (fun t => hsolve fuel t) s1.log sq)
              (.ok (false, s1)) with e | ⟨b, s2⟩
          · rw [show hsolve (fuel + 1) s = .error e by
              rw [heq3, hfold]] at h
            exact Except.noConfusion h
          · cases b with
            | true =>
              rw [show hsolve (fuel + 1) s = .ok (true, s2) by
                rw [heq3, hfold]] at h
              exact absurd (congrArg Prod.fst (Except.ok.inj h)) (by simp)
            | false =>
              have hparts := hsolveVals_false ih hsq81 s1.log
                (s1.get_sq_options sq) s1 s2 hw1 rfl rfl rfl rfl
                (fun v hv => hv) hfold
              have hw3 : Wf { s2 with log := s1.log } :=
                wf_of_parts hw1 hparts.1 hparts.2.1 hparts.2.2.1 hparts.2.2.2
              have hLmem : ∀ q ∈ s.get_opens.filter
                  (fun q =>
                    ({ s2 with log := s1.log } : Sudoku).board.getD q 0 ≠ 0),
                  q < 81 ∧
                    ({ s2 with log := s1.log } : Sudoku).board.getD q 0 ≠ 0 := by
                intro q hq
                obtain ⟨hq1, hq2⟩ := List.mem_filter.1 hq
                exact ⟨(mem_get_opens.1 hq1).1, of_decide_eq_true hq2⟩
              obtain ⟨u, hueq, hwu, hulog, hub⟩ := unwindFold_spec
                (s.get_opens.filter
                  (fun q =>
                    ({ s2 with log := s1.log } : Sudoku).board.getD q 0 ≠ 0))
                { s2 with log := s1.log } hw3
                (List.Nodup.filter _ (nodup_get_opens s)) hLmem
              rw [show hsolve (fuel + 1) s = .ok (false, u) by
                rw [heq3, hfold]
                show (match unwindFold { s2 with log := s1.log }
                    (s.get_opens.filter
                      (fun q =>
                        ({ s2 with log := s1.log } : Sudoku).board.getD q 0 ≠ 0)) with
                  | .error e => Except.error e
                  | .ok s4 => Except.ok (false, s4)) = Except.ok (false, u)
                rw [hueq]] at h
              obtain rfl : u = s' := congrArg Prod.snd (Except.ok.inj h)
              have hboard : u.board = s.board := by
                refine list_ext_getD _ _ 0 (by rw [hwu.1.1, hw.1.1]) ?_
                intro i hi
                have hi81 : i < 81 := by rw [hwu.1.1] at hi; exact hi
                rw [hub i]
                by_cases hiL : i ∈ s.get_opens.filter
                    (fun q =>
                      ({ s2 with log := s1.log } : Sudoku).board.getD q 0 ≠ 0)
                · rw [if_pos hiL]
                  exact ((mem_get_opens.1 (List.mem_filter.1 hiL).1).2).symm
                · rw [if_neg hiL]
                  show s2.board.getD i 0 = s.board.getD i 0
                  rw [hparts.1]
                  by_cases hz : s.board.getD i 0 = 0
                  · have hio : i ∈ s.get_opens := mem_get_opens.2 ⟨hi81, hz⟩
                    have hnd : ¬(decide
                        (({ s2 with log := s1.log } : Sudoku).board.getD i 0 ≠ 0)
                          = true) :=
                      fun hd => hiL (List.mem_filter.2 ⟨hio, hd⟩)
                    rw [decide_eq_true_eq] at hnd
                    push_neg at hnd
                    have : s2.board.getD i 0 = 0 := hnd
                    rw [hparts.1] at this
                    rw [this, hz]
                  · exact hagree1 i hi81 hz
              obtain ⟨hrs, hcs, hxs⟩ := wf_sets_eq hwu hw hboard
              exact ⟨hboard, hrs, hcs, hxs, ⟨s1, rfl, hulog⟩⟩

/-! ### Reachable states and the candidate-set invariant -/

/-- States reachable from a fresh board by successful `fill`/`unfill` calls. -/
inductive Reachable : Sudoku → Prop where
  | init : Reachable Sudoku.new
  | fillStep {s s' : Sudoku} {sq v : Nat} {comp : List Nat} :
      Reachable s → s.fill sq v = .ok (s', comp) → Reachable s'
  | unfillStep {s s' : Sudoku} {sq : Nat} :
      Reachable s → s.unfill sq = .ok s' → Reachable s'

theorem reachable_wf {s : Sudoku} (h : Reachable s) : Wf s := by
  induction h with
  | init => exact wf_new
  | fillStep _ hf ihw => exact fill_wf ihw hf
  | unfillStep _ hu ihw => exact unfill_wf ihw hu

/-- The values currently placed in a row (nonzero cells, in cell order). -/
def rowVals (s : Sudoku) (r : Nat) : List Nat :=
  ((get_sqs_in_row r).map (fun q => s.board.getD q 0)).filter (fun v => v ≠ 0)

/-- The values currently placed in a column. -/
def colVals (s : Sudoku) (c : Nat) : List Nat :=
  ((get_sqs_in_col c).map (fun q => s.board.getD q 0)).filter (fun v => v ≠ 0)

/-- The values currently placed in a box. -/
def boxVals (s : Sudoku) (b : Nat) : List Nat :=
  ((get_sqs_in_box b).map (fun q => s.board.getD q 0)).filter (fun v => v ≠ 0)

theorem mem_initset {v : Nat} : v ∈ initset ↔ 1 ≤ v ∧ v ≤ 9 := by
  simp only [initset, List.mem_cons, List.not_mem_nil, or_false]
  omega

theorem mem_unitVals {bd : List Nat} {sqs : List Nat} {x : Nat} :
    x ∈ (sqs.map (fun q => bd.getD q 0)).filter (fun v => v ≠ 0) ↔
      (∃ q ∈ sqs, bd.getD q 0 = x) ∧ x ≠ 0 := by
  rw [List.mem_filter]
  simp only [List.mem_map, decide_eq_true_eq]

/-- The candidate-set/board relationship, phrased through the placed-value
lists, for any well-formed family. -/
theorem famOk_vals_iff {bd : List Nat} {sets : List (List Nat)} {U : UnitSys}
    (h : famOk bd sets U) {u : Nat} (hu : u < 9) (v : Nat) :
    v ∈ sets.getD u [] ↔ v ∈ initset ∧
      v ∉ ((U.uSqs u).map (fun q => bd.getD q 0)).filter (fun x => x ≠ 0) := by
  rw [famOk_mem_iff h hu v, mem_initset, mem_unitVals]
  constructor
  · rintro ⟨hb, hall⟩
    refine ⟨hb, fun hm => ?_⟩
    obtain ⟨⟨q, hq, hqv⟩, _⟩ := hm
    exact hall q hq hqv
  · rintro ⟨hb, hnm⟩
    refine ⟨hb, fun q hq hqv => hnm ⟨⟨q, hq, hqv⟩, by omega⟩⟩

/-! ### Serialization, digits and the replay of a saved board -/

/-- The decimal digit character of a value 0–9. -/
def digitChar (v : Nat) : Char := Char.ofNat (48 + v)

theorem toString_digit : ∀ v, v < 10 → toString v = String.mk [digitChar v] := by
  decide

theorem digitChar_isDigit : ∀ v, v < 10 → (digitChar v).isDigit = true := by
  decide

theorem digitChar_toNat : ∀ v, v < 10 → (digitChar v).toNat - 48 = v := by
  decide

theorem str_append_data (a b : String) : (a ++ b).data = a.data ++ b.data := by
  cases a
  cases b
  rfl

theorem toStr_go : ∀ (bd : List Nat) (pre : String), (∀ v ∈ bd, v ≤ 9) →
    bd.foldl (fun acc v => acc ++ toString v) pre =
      String.mk (pre.data ++ bd.map digitChar)
  | [], pre, _ => by
    cases pre with
    | mk data =>
      rw [List.foldl_nil, List.map_nil, List.append_nil]
  | v :: bd, pre, hb => by
    rw [List.foldl_cons, toStr_go bd (pre ++ toString v)
      (fun w hw => hb w (List.mem_cons_of_mem _ hw)), List.map_cons]
    have hv : v < 10 := by
      have := hb v (List.mem_cons_self _ _)
      omega
    rw [str_append_data, toString_digit v hv]
    show String.mk (pre.data ++ [digitChar v] ++ bd.map digitChar) = _
    rw [List.append_assoc]
    rfl

theorem toStr_eq {s : Sudoku} (hb : ∀ v ∈ s.board, v ≤ 9) :
    s.toStr = String.mk (s.board.map digitChar) := by
  unfold Sudoku.toStr
  rw [toStr_go s.board "" hb]
  rfl

theorem wf_board_vals {s : Sudoku} (hw : Wf s) : ∀ v ∈ s.board, v ≤ 9 := by
  intro v hv
  obtain ⟨i, hi, rfl⟩ := List.mem_iff_getElem.1 hv
  have hi81 : i < 81 := by rw [hw.1.1] at hi; exact hi
  have := hw.2.1 i hi81
  rwa [List.getD_eq_getElem s.board 0 hi] at this

theorem replicate_getD : ∀ (n i : Nat), (List.replicate n 0).getD i 0 = 0
  | 0, _ => by simp
  | n + 1, 0 => rfl
  | n + 1, i + 1 => replicate_getD n i

theorem preload_go (s : Sudoku) (hs : Wf s) :
    ∀ (l : List Nat) (n : Nat) (t : Sudoku), Wf t → n + l.length = 81 →
      (∀ j, j < l.length → l.getD j 0 = s.board.getD (n + j) 0) →
      (∀ i, i < n → t.board.getD i 0 = s.board.getD i 0) →
      (∀ i, n ≤ i → i < 81 → t.board.getD i 0 = 0) →
      ∃ u, (l.enumFrom n).foldl preloadStep (.ok t) = .ok u ∧ Wf u ∧
        ∀ i, i < 81 → u.board.getD i 0 = s.board.getD i 0
  | [], n, t, hwt, hlen, _, hpre, _ =>
    ⟨t, rfl, hwt, fun i hi => hpre i (by simp at hlen; omega)⟩
  | v :: l, n, t, hwt, hlen, hvals, hpre, hsuf => by
    have hn81 : n < 81 := by
      simp only [List.length_cons] at hlen
      omega
    have hv : v = s.board.getD n 0 := by
      have := hvals 0 (by simp)
      simpa using this
    have hopen : t.board.getD n 0 = 0 := hsuf n (le_refl n) hn81
    have henum : (v :: l).enumFrom n = (n, v) :: l.enumFrom (n + 1) := rfl
    rw [henum, List.foldl_cons]
    by_cases hv0 : v = 0
    · have hstep : preloadStep (.ok t) (n, v) = .ok t := by
        show (if v ≠ 0 then
            match t.fill n v with
            | .error e => Except.error e
            | .ok (t1, _) => Except.ok t1
          else t.unfill n) = Except.ok t
        rw [if_neg (by omega), unfill_noop hn81 hopen]
      rw [hstep]
      refine preload_go s hs l (n + 1) t hwt (by simp only [List.length_cons] at hlen; omega)
        (fun j hj => ?_) (fun i hi => ?_) (fun i hi1 hi2 => hsuf i (by omega) hi2)
      · have := hvals (j + 1) (by simp only [List.length_cons]; omega)
        rw [show (v :: l).getD (j + 1) 0 = l.getD j 0 from rfl] at this
        rw [this]
        congr 1
        omega
      · by_cases hin : i = n
        · subst hin
          rw [hopen, ← hv, hv0]
        · exact hpre i (by omega)
    · have hb9 : v ≤ 9 := by
        rw [hv]
        exact hs.2.1 n hn81
      have hgen : ∀ {U : UnitSys} (tsets : List (List Nat)), UnitSysOk U →
          famOk t.board tsets U → UnitDistinct s.board (U.uSqs (U.uOf n)) →
          v ∈ tsets.getD (U.uOf n) [] := by
        intro U tsets hU hfam hdist
        rw [famOk_mem_iff hfam (hU.2.1 n hn81) v]
        refine ⟨⟨by omega, hb9⟩, fun q hq hqv => ?_⟩
        have hq81 := ((hU.1 (U.uOf n) (hU.2.1 n hn81) q).1 hq).1
        by_cases hqn : n ≤ q
        · rw [hsuf q hqn hq81] at hqv
          omega
        · push_neg at hqn
          rw [hpre q hqn] at hqv
          have hne : s.board.getD n 0 ≠ s.board.getD q 0 :=
            hdist n (mem_own_unit hU hn81) q hq (by omega)
              (by rw [← hv]; omega)
          exact hne (by rw [← hv, hqv])
      have hr := hgen t.rows rowSys_ok hwt.2.2.1
        (hs.2.2.1 (rowOf n) (rowSys_ok.2.1 n hn81)).2.2
      have hc := hgen t.cols colSys_ok hwt.2.2.2.1
        (hs.2.2.2.1 (colOf n) (colSys_ok.2.1 n hn81)).2.2
      have hbx := hgen t.boxes boxSys_ok hwt.2.2.2.2
        (hs.2.2.2.2 (boxOf n) (boxSys_ok.2.1 n hn81)).2.2
      have hfill := fill_ok hwt hn81 hopen hr hc hbx
      have hstep : preloadStep (.ok t) (n, v) = .ok (fillState t n v) := by
        show (if v ≠ 0 then
            match t.fill n v with
            | .error e => Except.error e
            | .ok (t1, _) => Except.ok t1
          else t.unfill n) = Except.ok (fillState t n v)
        rw [if_pos hv0]
        show (match t.fill n v with
          | .error e => Except.error e
          | .ok (t1, _) => Except.ok t1) = Except.ok (fillState t n v)
        rw [hfill]
      rw [hstep]
      refine preload_go s hs l (n + 1) (fillState t n v)
        (fillState_wf hwt hn81 hopen hr hc hbx)
        (by simp only [List.length_cons] at hlen; omega)
        (fun j hj => ?_) (fun i hi => ?_) (fun i hi1 hi2 => ?_)
      · have := hvals (j + 1) (by simp only [List.length_cons]; omega)
        rw [show (v :: l).getD (j + 1) 0 = l.getD j 0 from rfl] at this
        rw [this]
        congr 1
        omega
      · by_cases hin : i = n
        · subst hin
          rw [show (fillState t i v).board = t.board.set i v from rfl,
            getD_set_self t.board i v 0 (by rw [hwt.1.1]; omega), hv]
        · rw [show (fillState t n v).board = t.board.set n v from rfl,
            getD_set_ne t.board n i v 0 (fun h => hin h.symm)]
          exact hpre i (by omega)
      · rw [show (fillState t n v).board = t.board.set n v from rfl,
          getD_set_ne t.board n i v 0 (fun h => by omega)]
        exact hsuf i (by omega) hi2

theorem preloadList_replay {s : Sudoku} (hw : Wf s) :
    ∃ u, preloadList Sudoku.new s.board = .ok (0, u) ∧ Wf u ∧
      u.board = s.board := by
  obtain ⟨u, heq, hwu, hpt⟩ := preload_go s hw s.board 0 Sudoku.new wf_new
    (by rw [Nat.zero_add, hw.1.1]) (fun j hj => by rw [Nat.zero_add])
    (fun i hi => absurd hi (by omega))
    (fun i _ _ => replicate_getD 81 i)
  refine ⟨u, ?_, hwu, ?_⟩
  · unfold preloadList
    rw [show s.board.enum = s.board.enumFrom 0 from rfl, heq]
  · exact list_ext_getD u.board s.board 0 (by rw [hwu.1.1, hw.1.1])
      (fun i hi => hpt i (by rw [hwu.1.1] at hi; exact hi))

theorem openCount_le (s : Sudoku) : openCount s ≤ 81 := by
  unfold openCount Sudoku.get_opens
  calc (List.filter _ (List.range 81)).length
      ≤ (List.range 81).length := List.length_filter_le _ _
    _ = 81 := by simp

/-- The string form of a cell-value list (used for ingestion round trips). -/
def digitsStr (l : List Nat) : String := String.mk (l.map digitChar)

theorem preload_digitsStr {b : Sudoku} {l : List Nat} (hlen : l.length = 81)
    (hvals : ∀ v ∈ l, v ≤ 9) :
    b.preload (.strIn (digitsStr l)) = preloadList b l := by
  show (if (digitsStr l).length = 81 then
      if ((digitsStr l).data.all fun c => c.isDigit) = true then
        preloadList b (List.map (fun c => c.toNat - 48) (digitsStr l).data)
      else Except.error ("ValueError")
    else Except.ok (-1, b)) = preloadList b l
  have hlen81 : (digitsStr l).length = 81 := by
    show (l.map digitChar).length = 81
    rw [List.length_map, hlen]
  rw [if_pos hlen81]
  have hdig : (digitsStr l).data.all (fun c => c.isDigit) = true := by
    show (l.map digitChar).all (fun c => c.isDigit) = true
    rw [List.all_eq_true]
    intro c hc
    obtain ⟨v, hv, rfl⟩ := List.mem_map.1 hc
    exact digitChar_isDigit v (by have := hvals v hv; omega)
  rw [if_pos hdig]
  have hmap : (digitsStr l).data.map (fun c => c.toNat - 48) = l := by
    show (l.map digitChar).map (fun c => c.toNat - 48) = l
    rw [List.map_map]
    have hcong : ∀ v ∈ l, ((fun c => c.toNat - 48) ∘ digitChar) v = id v :=
      fun v hv => digitChar_toNat v (by have := hvals v hv; omega)
    rw [List.map_congr_left hcong, List.map_id]
  rw [hmap]

/-! ### Claim theorems -/

/-- C1: for every well-formed starting state, `solve` returns success if and
only if the board has a legal completion; on success the final board is fully
filled and satisfies every row/column/box uniqueness constraint while
agreeing with the input clues; with zero legal completions it returns
`False` (unsolvable) with the board unchanged, never a partially-filled
success. -/
theorem C1_solve_correct (s : Sudoku) (hw : Wf s) :
    ((∃ s', solve 82 s = .ok (true, s')) ↔ Solvable s) ∧
    (∀ s', solve 82 s = .ok (true, s') →
      (∀ i, i < 81 → s'.board.getD i 0 ≠ 0) ∧ ValidFull s'.board ∧
        Completion s.board s'.board) ∧
    (¬ Solvable s → solve 82 s = .ok (false, s)) := by
  have hcnt : openCount s < 82 := by
    have := openCount_le s
    omega
  rcases solve_spec 82 s hw hcnt with ⟨s', heq, hw', hcnt0, hagree⟩ | ⟨heq, hns⟩
  · have hfull := openCount_zero_iff.1 hcnt0
    have hvalid := wf_filled_valid hw' hfull
    have hsolv : Solvable s := ⟨s'.board, hvalid, hagree⟩
    refine ⟨⟨fun _ => hsolv, fun _ => ⟨s', heq⟩⟩, ?_, fun hns => absurd hsolv hns⟩
    intro s'' heq''
    rw [heq] at heq''
    obtain rfl : s' = s'' := congrArg Prod.snd (Except.ok.inj heq'')
    exact ⟨hfull, hvalid, hvalid, hagree⟩
  · refine ⟨⟨?_, fun hs => absurd hs hns⟩, ?_, fun _ => heq⟩
    · rintro ⟨s', heq'⟩
      rw [heq] at heq'
      exact absurd (congrArg Prod.fst (Except.ok.inj heq')) (by simp)
    · intro s'' heq''
      rw [heq] at heq''
      exact absurd (congrArg Prod.fst (Except.ok.inj heq'')) (by simp)

theorem C1_witness : Wf (loadGame solution1) ∧
    (∃ s', solve 82 (loadGame solution1) = .ok (true, s')) :=
  have hw : Wf (loadGame solution1) := by decide
  ⟨hw, (C1_solve_correct (loadGame solution1) hw).1.mpr
    ⟨(loadGame solution1).board, by decide⟩⟩

/-- C2: after any sequence of `fill`/`unfill` calls starting from a fresh
board, each row candidate set `rows[r]` holds exactly `{1..9}` minus the
values currently placed in row `r`, and likewise for `cols[c]` with columns
and `boxes[b]` with boxes. -/
theorem C2_candidate_sets (s : Sudoku) (hreach : Reachable s) :
    ∀ u, u < 9 → ∀ v,
      (v ∈ s.rows.getD u [] ↔ v ∈ initset ∧ v ∉ rowVals s u) ∧
      (v ∈ s.cols.getD u [] ↔ v ∈ initset ∧ v ∉ colVals s u) ∧
      (v ∈ s.boxes.getD u [] ↔ v ∈ initset ∧ v ∉ boxVals s u) := by
  intro u hu v
  have hw := reachable_wf hreach
  exact ⟨famOk_vals_iff hw.2.2.1 hu v, famOk_vals_iff hw.2.2.2.1 hu v,
    famOk_vals_iff hw.2.2.2.2 hu v⟩

theorem C2_witness :
    (5 ∈ Sudoku.new.rows.getD 0 [] ↔ 5 ∈ initset ∧ 5 ∉ rowVals Sudoku.new 0) ∧
    (5 ∈ Sudoku.new.cols.getD 0 [] ↔ 5 ∈ initset ∧ 5 ∉ colVals Sudoku.new 0) ∧
    (5 ∈ Sudoku.new.boxes.getD 0 [] ↔ 5 ∈ initset ∧ 5 ∉ boxVals Sudoku.new 0) :=
  C2_candidate_sets Sudoku.new Reachable.init 0 (by decide) 5

theorem mem_fillCompleted {s : Sudoku} {sq v x : Nat} :
    x ∈ fillCompleted s sq v ↔
      ((s.rows.getD (rowOf sq) []).erase v = [] ∧
        x ∈ get_sqs_in_row (rowOf sq)) ∨
      ((s.cols.getD (colOf sq) []).erase v = [] ∧
        x ∈ get_sqs_in_col (colOf sq)) ∨
      ((s.boxes.getD (boxOf sq) []).erase v = [] ∧
        x ∈ get_sqs_in_box (boxOf sq)) := by
  unfold fillCompleted
  by_cases h1 : (s.rows.getD (rowOf sq) []).erase v = [] <;>
    by_cases h2 : (s.cols.getD (colOf sq) []).erase v = [] <;>
      by_cases h3 : (s.boxes.getD (boxOf sq) []).erase v = [] <;>
        simp [h1, h2, h3]

/-- C3: filling an unoccupied square with a value 1–9 fails with
`IllegalAssignment` unless the value is in all three candidate sets of that
square's row, column and box; on success it writes the value to the board,
removes it from exactly those three candidate sets, and returns exactly the
squares of every unit whose candidate set became empty. -/
theorem C3_fill_contract (s : Sudoku) (sq v : Nat) (hsq : sq < 81)
    (hv1 : 1 ≤ v) (hv9 : v ≤ 9) (hopen : s.board.getD sq 0 = 0) :
    (¬(v ∈ s.rows.getD (rowOf sq) [] ∧ v ∈ s.cols.getD (colOf sq) [] ∧
        v ∈ s.boxes.getD (boxOf sq) []) →
      s.fill sq v = .error ("IllegalAssignment")) ∧
    ((v ∈ s.rows.getD (rowOf sq) [] ∧ v ∈ s.cols.getD (colOf sq) [] ∧
        v ∈ s.boxes.getD (boxOf sq) []) →
      ∃ s' comp, s.fill sq v = .ok (s', comp) ∧
        s'.board = s.board.set sq v ∧
        s'.rows = s.rows.set (rowOf sq) ((s.rows.getD (rowOf sq) []).erase v) ∧
        s'.cols = s.cols.set (colOf sq) ((s.cols.getD (colOf sq) []).erase v) ∧
        s'.boxes = s.boxes.set (boxOf sq)
          ((s.boxes.getD (boxOf sq) []).erase v) ∧
        s'.log = s.log ∧
        (∀ x, x ∈ comp ↔
          ((s.rows.getD (rowOf sq) []).erase v = [] ∧
            x ∈ get_sqs_in_row (rowOf sq)) ∨
          ((s.cols.getD (colOf sq) []).erase v = [] ∧
            x ∈ get_sqs_in_col (colOf sq)) ∨
          ((s.boxes.getD (boxOf sq) []).erase v = [] ∧
            x ∈ get_sqs_in_box (boxOf sq)))) := by
  refine ⟨fun hno => fill_illegal hsq (by omega) (by omega) hopen hno,
    fun hleg => ?_⟩
  exact ⟨fillState s sq v, fillCompleted s sq v,
    fill_ok_core hsq hopen ⟨hv1, hv9⟩ hleg.1 hleg.2.1 hleg.2.2,
    rfl, rfl, rfl, rfl, rfl, fun x => mem_fillCompleted⟩

theorem C3_witness : ∃ s' comp, Sudoku.new.fill 0 5 = .ok (s', comp) ∧
    s'.board = Sudoku.new.board.set 0 5 := by
  obtain ⟨s', comp, heq, hb, _⟩ := (C3_fill_contract Sudoku.new 0 5 (by decide)
    (by decide) (by decide) (by decide)).2 (by decide)
  exact ⟨s', comp, heq, hb⟩

/-- C4: whenever an `hsolve` call returns failure, every square it filled
during the call — including the deduction fills of the failed branch — has
been unfilled again: the 81 board cells and all 27 candidate sets equal
their values at entry. -/
theorem C4_hsolve_rollback (fuel : Nat) (s s' : Sudoku) (hw : Wf s)
    (h : hsolve fuel s = .ok (false, s')) :
    s'.board = s.board ∧ s'.rows = s.rows ∧ s'.cols = s.cols ∧
      s'.boxes = s.boxes :=
  ⟨(hsolve_false_spec fuel s s' hw h).1, (hsolve_false_spec fuel s s' hw h).2.1,
    (hsolve_false_spec fuel s s' hw h).2.2.1,
    (hsolve_false_spec fuel s s' hw h).2.2.2.1⟩

/-- Recognises a `False` solver outcome (used to extract concrete runs). -/
def isFalseOk : Except String (Bool × Sudoku) → Bool
  | .ok (false, _) => true
  | _ => false

theorem exists_of_isFalseOk {e : Except String (Bool × Sudoku)}
    (h : isFalseOk e = true) : ∃ s', e = .ok (false, s') := by
  rcases e with e | ⟨b, s'⟩
  · exact absurd h (by simp [isFalseOk])
  · cases b
    · exact ⟨s', rfl⟩
    · exact absurd h (by simp [isFalseOk])

theorem C4_witness : Wf (loadGame badGame) ∧
    ∃ s', hsolve 82 (loadGame badGame) = .ok (false, s') ∧
      s'.board = (loadGame badGame).board ∧
      s'.rows = (loadGame badGame).rows := by
  have hw : Wf (loadGame badGame) := by decide
  obtain ⟨s', heq⟩ := exists_of_isFalseOk
    (show isFalseOk (hsolve 82 (loadGame badGame)) = true from by rfl)
  obtain ⟨hb, hr, _, _⟩ := C4_hsolve_rollback 82 (loadGame badGame) s' hw heq
  exact ⟨hw, s', heq, hb, hr⟩

/-- C5: every value assigned by the naked-single pass (`intersect`) or by
the hidden-single pass (`subtract` via `_sub_factor`) is drawn from the
target square's candidate set at fill time, so the legality assertions in
`fill` never fire and the passes preserve the full invariant (no uniqueness
violation). -/
theorem C5_deduction_safe (s : Sudoku) (hw : Wf s) :
    (∃ n s1, s.intersect = .ok (n, s1) ∧ Wf s1) ∧
    (∀ squares : List Nat, (∀ q ∈ squares, q < 81) →
      ∃ n s1, sub_factor s squares = .ok (n, s1) ∧ Wf s1) ∧
    (∃ n s1, s.subtract = .ok (n, s1) ∧ Wf s1) := by
  refine ⟨?_, ?_, ?_⟩
  · obtain ⟨n, s1, heq, hw1, _⟩ := intersect_ok hw
    exact ⟨n, s1, heq, hw1⟩
  · intro squares hlt
    obtain ⟨n, s1, heq, hw1, _⟩ := sub_factor_ok hw hlt
    exact ⟨n, s1, heq, hw1⟩
  · obtain ⟨n, s1, heq, hw1, _⟩ := subtract_ok hw
    exact ⟨n, s1, heq, hw1⟩

theorem C5_witness :
    (∃ n s1, Sudoku.new.intersect = .ok (n, s1) ∧ Wf s1) ∧
    (∃ n s1, sub_factor Sudoku.new (get_sqs_in_box 0) = .ok (n, s1) ∧ Wf s1) ∧
    (∃ n s1, Sudoku.new.subtract = .ok (n, s1) ∧ Wf s1) := by
  obtain ⟨h1, h2, h3⟩ := C5_deduction_safe Sudoku.new wf_new
  exact ⟨h1, h2 (get_sqs_in_box 0) (by decide), h3⟩

/-- Checker for the classic example puzzle (kept as a single boolean so the
kernel evaluates the whole run once). -/
def c6chk : Bool :=
  match Sudoku.new.preload (.strIn puzzle1) with
  | .ok (code, s0) =>
    (code == 0) &&
      (match solve 82 s0 with
      | .ok (true, s1) => s1.toStr == solution1
      | _ => false)
  | .error _ => false

/-- C6: preloading the classic example puzzle into a fresh board succeeds
and `solve` completes it to exactly the expected 81-character solution. -/
theorem C6_classic_puzzle : ∃ s0 s1,
    Sudoku.new.preload (.strIn puzzle1) = .ok (0, s0) ∧
    solve 82 s0 = .ok (true, s1) ∧ s1.toStr = solution1 := by
  have h1 : c6chk = true := by rfl
  unfold c6chk at h1
  rcases hp : Sudoku.new.preload (.strIn puzzle1) with e | ⟨code, s0⟩ <;>
    rw [hp] at h1
  · exact absurd h1 (by simp)
  · have h2 : (code == 0) = true ∧
        (match solve 82 s0 with
        | .ok (true, s1) => s1.toStr == solution1
        | _ => false) = true := by
      rw [← Bool.and_eq_true]
      exact h1
    obtain rfl : code = 0 := by
      have := h2.1
      exact eq_of_beq this
    refine ⟨s0, ?_⟩
    have h3 := h2.2
    rcases hs : solve 82 s0 with e | ⟨b, s1⟩ <;> rw [hs] at h3
    · exact absurd h3 (by simp)
    · cases b
      · exact absurd h3 (by simp)
      · exact ⟨s1, rfl, rfl, eq_of_beq h3⟩

/-- C7: serializing any reachable board to its 81-character string and
preloading that string into a fresh board reproduces the identical 81-cell
value sequence. -/
theorem C7_roundtrip (s : Sudoku) (hreach : Reachable s) :
    ∃ s2, Sudoku.new.preload (.strIn s.toStr) = .ok (0, s2) ∧
      s2.board = s.board := by
  have hw := reachable_wf hreach
  have hts := toStr_eq (wf_board_vals hw)
  obtain ⟨u, heq, hwu, hbd⟩ := preloadList_replay hw
  refine ⟨u, ?_, hbd⟩
  rw [hts]
  show Sudoku.new.preload (.strIn (digitsStr s.board)) = Except.ok (0, u)
  rw [preload_digitsStr hw.1.1 (wf_board_vals hw)]
  exact heq

theorem C7_witness : ∃ s2,
    Sudoku.new.preload (.strIn Sudoku.new.toStr) = .ok (0, s2) ∧
      s2.board = Sudoku.new.board :=
  C7_roundtrip Sudoku.new Reachable.init

/-- C8 (amended): ingestion accepts both an 81-character digit string and an
integer list; the two 81-length forms parse identically; a string whose
length is not 81 is rejected with `-1` (MalformedInput) before any mutation;
but list inputs are processed directly without any length check. -/
theorem C8_preload_amended :
    (∀ (b : Sudoku) (str : String), str.length ≠ 81 →
      b.preload (.strIn str) = .ok (-1, b)) ∧
    (∀ (b : Sudoku) (l : List Nat), l.length = 81 → (∀ v ∈ l, v ≤ 9) →
      b.preload (.strIn (digitsStr l)) = b.preload (.listIn l)) ∧
    (∀ (b : Sudoku) (l : List Nat), b.preload (.listIn l) = preloadList b l) := by
  refine ⟨?_, ?_, ?_⟩
  · intro b str hlen
    show (if str.length = 81 then
        if (str.data.all fun c => c.isDigit) = true then
          preloadList b (List.map (fun c => c.toNat - 48) str.data)
        else Except.error ("ValueError")
      else Except.ok (-1, b)) = Except.ok (-1, b)
    rw [if_neg hlen]
  · intro b l hlen hvals
    rw [preload_digitsStr hlen hvals]
    rfl
  · intro b l
    rfl

/-- C8 counterexample: the empty list — length 0, not 81 — is accepted by
`preload` with success code 0 (no `MalformedInput` rejection), so list
inputs are not length-checked. -/
theorem C8_counterexample :
    Sudoku.new.preload (.listIn []) = .ok (0, Sudoku.new) ∧
      ([] : List Nat).length ≠ 81 := ⟨rfl, by decide⟩

theorem C8_witness :
    Sudoku.new.preload (.strIn ("xyz")) = .ok (-1, Sudoku.new) ∧
    Sudoku.new.preload (.strIn (digitsStr (List.replicate 81 0))) =
      Sudoku.new.preload (.listIn (List.replicate 81 0)) := by
  obtain ⟨h1, h2, _⟩ := C8_preload_amended
  refine ⟨h1 Sudoku.new ("xyz") (by decide),
    h2 Sudoku.new (List.replicate 81 0) (by decide) (fun v hv => ?_)⟩
  have := List.eq_of_mem_replicate hv
  omega

/-- C9 (amended): whenever an `hsolve` call returns failure, the log equals
its value just after the failing call's own deduction passes — the entry log
extended by at most one `iNN` and one `sNN` token; every `_r_` marker and
every token appended by abandoned deeper branches has been discarded, but
the failing call's own deduction tokens are retained (the log is not reset
all the way to its entry value). -/
theorem C9_failure_log (fuel : Nat) (s s' : Sudoku) (hw : Wf s)
    (h : hsolve fuel s = .ok (false, s')) :
    ∃ sd, simplify s = .ok sd ∧ s'.log = sd.log ∧
      ∃ ti ts, sd.log = s.log ++ ti ++ ts ∧
        (ti = "" ∨ ∃ n, ti = "i" ++ pad2 n ++ " ") ∧
        (ts = "" ∨ ∃ n, ts = "s" ++ pad2 n ++ " ") := by
  obtain ⟨_, _, _, _, sd, hsim, hlog⟩ := hsolve_false_spec fuel s s' hw h
  obtain ⟨_, _, ti, ts, hts, hti, hts2⟩ := simplify_spec hw hsim
  exact ⟨sd, hsim, hlog, ti, ts, hts, hti, hts2⟩

/-- Checker for the failing `hsolve` run on `badGame`. -/
def c9chk : Bool :=
  match hsolve 82 (loadGame badGame) with
  | .ok (false, s') => decide (s'.log ≠ (loadGame badGame).log)
  | _ => false

/-- C9 counterexample: on the consistent but unsolvable `badGame` position,
`hsolve` returns failure with a log (`"i01 "`) different from its entry
value (`""`): the failed call's deduction token is not discarded, refuting
the claim that the log equals its value at entry to the call. -/
theorem C9_counterexample : ∃ s',
    hsolve 82 (loadGame badGame) = .ok (false, s') ∧
      s'.log ≠ (loadGame badGame).log := by
  have h1 : c9chk = true := by rfl
  unfold c9chk at h1
  rcases he : hsolve 82 (loadGame badGame) with e | ⟨b, s'⟩ <;> rw [he] at h1
  · exact Bool.noConfusion (show false = true from h1)
  · cases b
    · exact ⟨s', rfl, of_decide_eq_true h1⟩
    · exact Bool.noConfusion (show false = true from h1)

theorem C9_witness : ∃ s' sd,
    hsolve 82 (loadGame badGame) = .ok (false, s') ∧
    simplify (loadGame badGame) = .ok sd ∧ s'.log = sd.log := by
  have hw : Wf (loadGame badGame) := by decide
  obtain ⟨s', heq⟩ := exists_of_isFalseOk
    (show isFalseOk (hsolve 82 (loadGame badGame)) = true from by rfl)
  obtain ⟨sd, hsim, hlog, _⟩ := C9_failure_log 82 (loadGame badGame) s' hw heq
  exact ⟨s', sd, heq, hsim, hlog⟩

/-- C10: for a well-formed state, filling an open square with any value from
its candidate set and then unfilling that square restores the exact prior
state — the 81-cell board, all 27 candidate sets and the log. -/
theorem C10_fill_unfill (s : Sudoku) (sq v : Nat) (hw : Wf s) (hsq : sq < 81)
    (hopen : s.board.getD sq 0 = 0) (hv : v ∈ s.get_sq_options sq) :
    ∃ s1 comp, s.fill sq v = .ok (s1, comp) ∧ s1.unfill sq = .ok s := by
  obtain ⟨_, hr, hc, hb⟩ := mem_options.1 hv
  exact ⟨fillState s sq v, fillCompleted s sq v, fill_ok hw hsq hopen hr hc hb,
    fillState_unfill hw hsq hopen hr hc hb⟩

theorem C10_witness : ∃ s1 comp, Sudoku.new.fill 0 1 = .ok (s1, comp) ∧
    s1.unfill 0 = .ok Sudoku.new :=
  C10_fill_unfill Sudoku.new 0 1 wf_new (by decide) (by decide) (by decide)
